import Mathlib

/-! # Breach check of a password store

A shallow embedding of `pass_check_hibw.go`.  Pure code is translated to functions.
The outside world (the HTTP round trip, the `gpg` child process, the path join) is passed
in explicitly, and the goroutines of the worker pool are a step relation on a pool state.

Conventions:
* a Go `string` is a list of characters (`Str`); `[]byte(s)` is its UTF-8 encoding;
* a Go `int` counter is a natural number (the counters only count list elements);
* an `error` is a value of an inductive type, one constructor per `fmt.Errorf` call site,
  with `message` giving the text that `Error()` returns;
* terminal output is kept only where a property is about it (the result loop).
-/

namespace PassCheck

/-- Go `string` values are modelled as lists of characters. -/
abbrev Str := List Char

/-- The conversion `[]byte(s)`: the UTF-8 bytes of a string, as numbers below 256. -/
def toBytes (s : Str) : List Nat :=
  (s.flatMap String.utf8EncodeChar).map UInt8.toNat

/-- Length of a string in bytes, what Go's `len` returns. -/
def byteLen (s : Str) : Nat :=
  (s.map Char.utf8Size).sum

/-! ## Constants (lines 22-31) -/

def hibpApiUrl : Str := "https://api.pwnedpasswords.com/range/".toList

def userAgent : Str := "Go-Pass-Pwned-Checker/1.0".toList

def numWorkers : Nat := 10

def colorRed : Str := "\x1b[31m".toList

def colorGreen : Str := "\x1b[32m".toList

def colorYellow : Str := "\x1b[33m".toList

def colorBlue : Str := "\x1b[34m".toList

def colorReset : Str := "\x1b[0m".toList

/-! ## crypto/sha1 -/

namespace SHA1

/-- Rotate a 32-bit word left by `n` bits. -/
def rotl (n x : Nat) : Nat :=
  ((x <<< n) ||| (x >>> (32 - n))) % 2 ^ 32

/-- Big-endian bytes of a number, `n` bytes wide. -/
def beBytes : Nat → Nat → List Nat
  | 0, _ => []
  | n + 1, x => (x / 256 ^ n) % 256 :: beBytes n x

/-- Big-endian value of a list of bytes. -/
def beWord (bs : List Nat) : Nat :=
  bs.foldl (fun acc b => acc * 256 + b % 256) 0

/-- Message padding: a `0x80` byte, zeros up to 56 mod 64, then the bit length on 8 bytes. -/
def pad (msg : List Nat) : List Nat :=
  msg ++ 0x80 :: List.replicate ((119 - msg.length % 64) % 64) 0
    ++ beBytes 8 ((8 * msg.length) % 2 ^ 64)

/-- Cut a list into `n` consecutive chunks of `k` elements. -/
def chunks (k : Nat) : Nat → List Nat → List (List Nat)
  | 0, _ => []
  | n + 1, l => l.take k :: chunks k n (l.drop k)

/-- Extend the schedule (kept newest first) by `n` further words. -/
def extend : Nat → List Nat → List Nat
  | 0, w => w
  | n + 1, w =>
    extend n (rotl 1 (w.getD 2 0 ^^^ w.getD 7 0 ^^^ w.getD 13 0 ^^^ w.getD 15 0) :: w)

/-- The 80-word message schedule of a 64-byte block, oldest word first. -/
def schedule (block : List Nat) : List Nat :=
  (extend 64 ((chunks 4 16 block).map beWord).reverse).reverse

/-- The five chaining words. -/
structure State where
  a : Nat
  b : Nat
  c : Nat
  d : Nat
  e : Nat
  deriving DecidableEq, Repr

/-- The initial chaining value. -/
def init : State :=
  ⟨0x67452301, 0xEFCDAB89, 0x98BADCFE, 0x10325476, 0xC3D2E1F0⟩

/-- Round function and round constant of round `i`. -/
def fk (i b c d : Nat) : Nat × Nat :=
  if i < 20 then ((b &&& c) ||| ((b ^^^ 0xFFFFFFFF) &&& d), 0x5A827999)
  else if i < 40 then (b ^^^ c ^^^ d, 0x6ED9EBA1)
  else if i < 60 then ((b &&& c) ||| (b &&& d) ||| (c &&& d), 0x8F1BBCDC)
  else (b ^^^ c ^^^ d, 0xCA62C1D6)

/-- One of the 80 rounds. -/
def round (s : State) (i w : Nat) : State :=
  ⟨(rotl 5 s.a + (fk i s.b s.c s.d).1 + s.e + (fk i s.b s.c s.d).2 + w) % 2 ^ 32,
   s.a, rotl 30 s.b, s.c, s.d⟩

/-- Run the rounds over the schedule, counting rounds from `i`. -/
def rounds : State → Nat → List Nat → State
  | s, _, [] => s
  | s, i, w :: ws => rounds (round s i w) (i + 1) ws

/-- Compress one block into the chaining state. -/
def compress (h : State) (block : List Nat) : State :=
  let s := rounds h 0 (schedule block)
  ⟨(h.a + s.a) % 2 ^ 32, (h.b + s.b) % 2 ^ 32, (h.c + s.c) % 2 ^ 32,
   (h.d + s.d) % 2 ^ 32, (h.e + s.e) % 2 ^ 32⟩

/-- The 20-byte digest of a chaining state. -/
def digest (h : State) : List Nat :=
  beBytes 4 h.a ++ beBytes 4 h.b ++ beBytes 4 h.c ++ beBytes 4 h.d ++ beBytes 4 h.e

/-- SHA-1 of a byte string: `h := sha1.New(); h.Write(msg); h.Sum(nil)`. -/
def sum (msg : List Nat) : List Nat :=
  digest ((chunks 64 ((pad msg).length / 64) (pad msg)).foldl compress init)

end SHA1

/-! ## fmt, strings -/

/-- One uppercase hexadecimal digit. -/
def hexDigit (n : Nat) : Char :=
  if n < 10 then Char.ofNat (48 + n) else Char.ofNat (55 + n)

/-- The rendering `fmt.Sprintf("%X", bytes)`: two uppercase hex digits per byte. -/
def hexUpper (bs : List Nat) : Str :=
  bs.flatMap fun b => [hexDigit (b % 256 / 16), hexDigit (b % 16)]

/-- The call `strings.Split(s, sep)` for a one-character separator. -/
def splitOn (sep : Char) : Str → List Str
  | [] => [[]]
  | c :: cs =>
    if c = sep then [] :: splitOn sep cs
    else
      match splitOn sep cs with
      | [] => [[c]]
      | p :: ps => (c :: p) :: ps

/-- Two characters are equal under ASCII case folding. -/
def eqFoldChar (a b : Char) : Bool :=
  decide (a = b)
    || decide (65 ≤ a.toNat ∧ a.toNat ≤ 90 ∧ b.toNat = a.toNat + 32)
    || decide (65 ≤ b.toNat ∧ b.toNat ≤ 90 ∧ a.toNat = b.toNat + 32)

/-- The call `strings.EqualFold(s, t)`, on its ASCII path: equal length, and position by
position the same character or the two cases of one ASCII letter.  It agrees with Go's
function whenever one argument consists of hexadecimal digits (no character outside ASCII
folds to one of them), which is the only way the program calls it. -/
def equalFold : Str → Str → Bool
  | [], [] => true
  | a :: s, b :: t => eqFoldChar a b && equalFold s t
  | _, _ => false

/-! ## bufio.Scanner -/

/-- What `scanner.Err()` can report. -/
inductive ScanErr where
  | tooLong
  | read (e : Str)
  deriving DecidableEq, Repr

/-- Text of a scanner error. -/
def ScanErr.message : ScanErr → Str
  | .tooLong => "bufio.Scanner: token too long".toList
  | .read e => e

/-- The constant `bufio.MaxScanTokenSize`, the largest buffer of a default scanner. -/
def maxScanTokenSize : Nat := 64 * 1024

/-- The helper `dropCR` of `bufio.ScanLines`: drop one trailing carriage return. -/
def dropCR (l : Str) : Str :=
  if l.getLast? = some '\r' then l.dropLast else l

/-- A stream as a reader delivers it: the data, then the end of the stream (`none`) or a
read error (`some e`), reported by a read of its own. -/
structure Body where
  data : Str
  readErr : Option Str
  deriving DecidableEq, Repr

/-- A default `bufio.Scanner` (split function `ScanLines`) run to the point where `Scan`
returns false: the tokens `Text()` gave, in order, and the final `Err()`.  `cur` is the
line read so far.  A line ends at a newline; the data left when the stream ends or fails
is a last line; a line that does not fit the buffer with its newline stops the scan with
the token-too-long error. -/
def scanFrom (readErr : Option Str) : Str → Str → List Str × Option ScanErr
  | cur, [] =>
    if cur = [] then ([], readErr.map ScanErr.read)
    else if maxScanTokenSize ≤ byteLen cur then ([], some ScanErr.tooLong)
    else ([dropCR cur], readErr.map ScanErr.read)
  | cur, c :: rest =>
    if c = '\n' then
      if maxScanTokenSize ≤ byteLen cur then ([], some ScanErr.tooLong)
      else (dropCR cur :: (scanFrom readErr [] rest).1, (scanFrom readErr [] rest).2)
    else scanFrom readErr (cur ++ [c]) rest

/-- The scanner over a whole stream: `bufio.NewScanner(body)` and the `Scan` loop. -/
def scan (body : Body) : List Str × Option ScanErr :=
  scanFrom body.readErr [] body.data

/-! ## net/http -/

/-- An `http.Header`: keys with their values. -/
abbrev Header := List (Str × List Str)

/-- The method `Header.Get` for a key in canonical form: the first value, or `""`. -/
def headerGet : Header → Str → Str
  | [], _ => []
  | (k, vs) :: rest, key => if k = key then vs.headD [] else headerGet rest key

/-- The method `Header.Set` for a key in canonical form: replace the values of the key. -/
def headerSet : Header → Str → Str → Header
  | [], key, v => [(key, [v])]
  | (k, vs) :: rest, key, v =>
    if k = key then (key, [v]) :: rest else (k, vs) :: headerSet rest key v

/-- An outgoing request. -/
structure Request where
  method : Str
  url : Str
  header : Header
  body : Option Str
  deriving DecidableEq, Repr

/-- The parts of an `http.Response` the program reads. -/
structure Response where
  statusCode : Nat
  status : Str
  header : Header
  body : Body
  deriving DecidableEq, Repr

/-- The round trip `client.Do(req)` of a client with a 15 second timeout: a response, or
the text of the transport error. -/
abbrev Transport := Request → Except Str Response

/-! ## checkPasswordPwned (lines 362-423) -/

/-- The errors `checkPasswordPwned` returns, one per `fmt.Errorf` call site that can be
reached.  (`h.Write` of a hash never fails, and `http.NewRequest` accepts the method
`GET` with the base URL followed by hexadecimal digits.) -/
inductive CheckError where
  | shortHash
  | transport (url : Str) (cause : Str)
  | rateLimited (retryAfter : Str)
  | badStatus (pfx : Str) (code : Nat) (status : Str) (body : Str)
  | bodyRead (pfx : Str) (cause : ScanErr)
  deriving DecidableEq, Repr

/-- The text of each error, as the format strings build it. -/
def CheckError.message : CheckError → Str
  | .shortHash => "unexpectedly short SHA1 hash generated".toList
  | .transport url cause =>
    "error making request to HIBP (".toList ++ url ++ "): ".toList ++ cause
  | .rateLimited retryAfter =>
    "rate limited by HIBP API (wait ".toList ++ retryAfter ++ " seconds)".toList
  | .badStatus pfx code status body =>
    "HIBP API returned non-200 status for prefix ".toList ++ pfx ++ ": ".toList
      ++ (Nat.repr code).toList ++ " ".toList ++ status ++ " - Body: ".toList ++ body
  | .bodyRead pfx cause =>
    "error reading HIBP response body for prefix ".toList ++ pfx ++ ": ".toList
      ++ cause.message

/-- Lines 365-370: the uppercase hexadecimal SHA-1 of the password bytes. -/
def hashString (password : Str) : Str :=
  hexUpper (SHA1.sum (toBytes password))

/-- Lines 376-377: the hash split after its first 5 characters. -/
def fingerprint (password : Str) : Str × Str :=
  ((hashString password).take 5, (hashString password).drop 5)

/-- Lines 380-386: the GET request for a hash head, with the two headers set. -/
def hibpRequest (pfx : Str) : Request :=
  { method := "GET".toList
    url := hibpApiUrl ++ pfx
    header := headerSet (headerSet [] "User-Agent".toList userAgent)
      "Add-Padding".toList "true".toList
    body := none }

/-- Lines 408-415: the loop over the scanned lines; true at the first line that splits in
two at `:` and whose first part equals the hash tail under case folding. -/
def matchLines (sfx : Str) : List Str → Bool
  | [] => false
  | line :: rest =>
    if (splitOn ':' line).length = 2 ∧ equalFold ((splitOn ':' line).headD []) sfx = true
    then true
    else matchLines sfx rest

/-- The function `checkPasswordPwned`, with the HTTP round trip as a parameter. -/
def checkPasswordPwned (client : Transport) (password : Str) : Bool × Option CheckError :=
  if (hashString password).length < 5 then (false, some CheckError.shortHash)
  else
    match client (hibpRequest (fingerprint password).1) with
    | .error e =>
      (false, some (CheckError.transport (hibpApiUrl ++ (fingerprint password).1) e))
    | .ok resp =>
      if resp.statusCode = 429 then
        (false, some (CheckError.rateLimited (headerGet resp.header "Retry-After".toList)))
      else if resp.statusCode ≠ 200 then
        (false, some (CheckError.badStatus (fingerprint password).1 resp.statusCode
          resp.status resp.body.data))
      else if matchLines (fingerprint password).2 (scan resp.body).1 then (true, none)
      else
        match (scan resp.body).2 with
        | some e => (false, some (CheckError.bodyRead (fingerprint password).1 e))
        | none => (false, none)

/-! ## The decrypted password map (line 46) -/

/-- The global `decryptedPasswords`, a `map[string]string`, as a list of key-value pairs
in which `mapSet` keeps each key once.  The order of the list has no meaning. -/
abbrev PassMap := List (Str × Str)

/-- The lookup `v, ok := m[k]`: `none` when `ok` is false. -/
def mapGet : PassMap → Str → Option Str
  | [], _ => none
  | (k, v) :: rest, key => if k = key then some v else mapGet rest key

/-- The assignment `m[k] = v`. -/
def mapSet : PassMap → Str → Str → PassMap
  | [], key, v => [(key, v)]
  | (k, w) :: rest, key, v =>
    if k = key then (key, v) :: rest else (k, w) :: mapSet rest key v

/-- The keys of the map. -/
def mapKeys (m : PassMap) : List Str :=
  m.map Prod.fst

/-! ## decryptGpgFile (lines 333-360) -/

/-- One run of `gpg --quiet --batch --decrypt <file>`: the error of `cmd.Run()`, if any,
and what the process wrote to its standard output. -/
structure CmdRun where
  runErr : Option Str
  stdout : Str
  deriving DecidableEq, Repr

/-- The errors `decryptGpgFile` returns. -/
inductive DecryptError where
  | gpgFailed (cause : Str)
  | readOutput (cause : ScanErr)
  | emptyFile
  deriving DecidableEq, Repr

/-- The text of each error. -/
def DecryptError.message : DecryptError → Str
  | .gpgFailed cause => "gpg decryption failed: ".toList ++ cause
  | .readOutput cause => "error reading gpg decrypt output: ".toList ++ cause.message
  | .emptyFile => "password file is empty".toList

/-- The function `decryptGpgFile`, with the child process as a parameter: the first line
of the output, or an error when the run fails, when the output cannot be scanned, or
when there is no first line. -/
def decryptGpgFile (gpg : Str → CmdRun) (filePath : Str) : Str × Option DecryptError :=
  match (gpg filePath).runErr with
  | some e => ([], some (DecryptError.gpgFailed e))
  | none =>
    match (scan ⟨(gpg filePath).stdout, none⟩).1 with
    | line :: _ => (line, none)
    | [] =>
      match (scan ⟨(gpg filePath).stdout, none⟩).2 with
      | some e => ([], some (DecryptError.readOutput e))
      | none => ([], some DecryptError.emptyFile)

/-! ## handleFullScanMode, step 2: decrypt (lines 126-175) -/

/-- What the decryption loop reads from outside: the store path, `filepath.Join`, and
the outcome of running gpg on a path. -/
structure World where
  storePath : Str
  join : Str → Str → Str
  gpg : Str → CmdRun

/-- The variables of the decryption loop. -/
structure DecryptState where
  decryptedPasswords : PassMap
  decryptionSkippedCount : Nat
  decryptionErrorCount : Nat
  processed : Nat
  deriving DecidableEq, Repr

/-- Lines 127-133: the state before the loop. -/
def decryptInit : DecryptState :=
  { decryptedPasswords := []
    decryptionSkippedCount := 0
    decryptionErrorCount := 0
    processed := 0 }

/-- Line 149: the decrypt call for one entry. -/
def decryptEntry (w : World) (entryName : Str) : Str × Option DecryptError :=
  decryptGpgFile w.gpg (w.join w.storePath (entryName ++ ".gpg".toList))

/-- Lines 135-172: one iteration of the loop (progress and warning output left out). -/
def decryptStep (w : World) (st : DecryptState) (entryName : Str) : DecryptState :=
  match (decryptEntry w entryName).2 with
  | some _ =>
    { st with processed := st.processed + 1
              decryptionErrorCount := st.decryptionErrorCount + 1 }
  | none =>
    if (decryptEntry w entryName).1 = [] then
      { st with processed := st.processed + 1
                decryptionSkippedCount := st.decryptionSkippedCount + 1 }
    else
      { st with processed := st.processed + 1
                decryptedPasswords :=
                  mapSet st.decryptedPasswords entryName (decryptEntry w entryName).1 }

/-- The decryption loop over the listed entries. -/
def decryptStage (w : World) (entries : List Str) : DecryptState :=
  entries.foldl (decryptStep w) decryptInit

/-! ## Check results and the worker (lines 38-43, 241-259) -/

/-- The struct `CheckResult`. -/
structure CheckResult where
  EntryName : Str
  IsPwned : Bool
  Error : Option CheckError
  Skipped : Bool
  deriving DecidableEq, Repr

/-- Lines 245-254: what a worker sends for one job. -/
def workerResult (m : PassMap) (client : Transport) (entryName : Str) : CheckResult :=
  match mapGet m entryName with
  | none => { EntryName := entryName, IsPwned := false, Error := none, Skipped := true }
  | some password =>
    if password = [] then
      { EntryName := entryName, IsPwned := false, Error := none, Skipped := true }
    else
      { EntryName := entryName
        IsPwned := (checkPasswordPwned client password).1
        Error := (checkPasswordPwned client password).2
        Skipped := false }

/-- The function `hibpCheckWorker` as one goroutine runs it: the results it sends, in
order, for the jobs it receives. -/
def hibpCheckWorker (m : PassMap) (client : Transport) (received : List Str) :
    List CheckResult :=
  received.map (workerResult m client)

/-! ## handleFullScanMode, step 4: results (lines 207-238) -/

/-- The counters of the result loop and the lines it prints. -/
structure Tally where
  pwnedCount : Nat
  hibpErrorCount : Nat
  checkedCount : Nat
  out : List Str
  deriving DecidableEq, Repr

/-- Lines 208-212: the state before the result loop. -/
def tallyInit : Tally :=
  { pwnedCount := 0
    hibpErrorCount := 0
    checkedCount := 0
    out := ["\n--- HIBP Check Results ---\n".toList] }

/-- Lines 213-223: one iteration of the result loop. -/
def tallyStep (t : Tally) (result : CheckResult) : Tally :=
  match result.Error with
  | some e =>
    { t with checkedCount := t.checkedCount + 1
             hibpErrorCount := t.hibpErrorCount + 1
             out := t.out ++ [colorYellow ++ "Error checking \x27".toList ++ result.EntryName
               ++ "\x27 against HIBP: ".toList ++ e.message ++ colorReset ++ "\n".toList] }
  | none =>
    if result.IsPwned then
      { t with checkedCount := t.checkedCount + 1
               pwnedCount := t.pwnedCount + 1
               out := t.out ++ [colorRed ++ "PWNED: \x27".toList ++ result.EntryName
                 ++ "\x27".toList ++ colorReset ++ "\n".toList] }
    else
      { t with checkedCount := t.checkedCount + 1 }

/-- The result loop over the results drained from the channel. -/
def tally (results : List CheckResult) : Tally :=
  results.foldl tallyStep tallyInit

/-- Lines 225-234: the final summary. -/
def summaryLines (found errors skipped : Nat) (t : Tally) : List Str :=
  ["\n--- Final Summary ---\n".toList,
   colorBlue ++ "Password Files Found: ".toList ++ (Nat.repr found).toList
     ++ colorReset ++ "\n".toList,
   colorYellow ++ "Decryption Errors: ".toList ++ (Nat.repr errors).toList
     ++ colorReset ++ "\n".toList,
   colorYellow ++ "Empty/Skipped Files: ".toList ++ (Nat.repr skipped).toList
     ++ colorReset ++ "\n".toList,
   colorBlue ++ "Passwords Checked: ".toList ++ (Nat.repr t.checkedCount).toList
     ++ colorReset ++ "\n".toList,
   colorRed ++ "Pwned Found:   ".toList ++ (Nat.repr t.pwnedCount).toList
     ++ colorReset ++ "\n".toList]
  ++ (if t.hibpErrorCount > 0 then
        [colorYellow ++ "HIBP Check Errors: ".toList ++ (Nat.repr t.hibpErrorCount).toList
          ++ colorReset ++ "\n".toList]
      else [])
  ++ [colorGreen ++ "Scan complete.".toList ++ colorReset ++ "\n".toList]

/-- Lines 236-238: the exit status after a scan. -/
def exitStatus (t : Tally) : Nat :=
  if t.pwnedCount > 0 then 1 else 0

/-- Everything the result step reports: the lines printed by the loop and by the
summary, and the exit status. -/
def report (found errors skipped : Nat) (results : List CheckResult) : List Str × Nat :=
  ((tally results).out ++ summaryLines found errors skipped (tally results),
   exitStatus (tally results))

/-! ## handleFullScanMode, step 3: the worker pool (lines 185-205)

The goroutines as a transition system.  The main goroutine starts the workers, sends
every key of the map on `jobs`, closes `jobs`, waits for the workers and closes
`results`.  Each worker receives jobs until `jobs` is closed and drained and sends one
result per job.  A buffered channel is the list of its queued values; a send needs room
in the buffer, a receive needs a queued value or a closed channel.  A schedule names, step
after step, the goroutine that runs next. -/

/-- Where a worker goroutine stands: at the receive of line 244, at a send on `results`
(lines 248 and 254) with the result it computed, or returned (`wg.Done()` has run). -/
inductive WorkerPc where
  | receiving
  | sending (r : CheckResult)
  | done
  deriving DecidableEq, Repr

/-- Where the main goroutine stands: in the loop of line 192 about to start worker `w`,
in the loop of line 198 with the keys still to send (with none left, at `close(jobs)`),
at `wg.Wait()`, or past `close(results)`. -/
inductive MainPc where
  | starting (w : Nat)
  | sending (pending : List Str)
  | waiting
  | finished
  deriving DecidableEq, Repr

/-- The shared state of the pool. -/
structure Pool where
  main : MainPc
  jobs : List Str
  jobsClosed : Bool
  results : List CheckResult
  resultsClosed : Bool
  workers : List WorkerPc
  capacity : Nat
  deriving DecidableEq, Repr

/-- A goroutine: the main one or the worker at an index. -/
inductive Actor where
  | main
  | worker (i : Nat)
  deriving DecidableEq, Repr

/-- Lines 186-189: the state when the channels have been made, both with the number of
keys as capacity. -/
def poolInit (m : PassMap) : Pool :=
  { main := MainPc.starting 1
    jobs := []
    jobsClosed := false
    results := []
    resultsClosed := false
    workers := []
    capacity := m.length }

/-- All workers have returned: the wait group counter is zero. -/
def allDone (ws : List WorkerPc) : Bool :=
  ws.all fun w => decide (w = WorkerPc.done)

/-- One step of the main goroutine, `none` when it is blocked or has finished.  `order`
is the order in which `range` visits the keys of the map. -/
def stepMain (order : List Str) (s : Pool) : Option Pool :=
  match s.main with
  | .starting w =>
    if w ≤ numWorkers then
      some { s with main := MainPc.starting (w + 1)
                    workers := s.workers ++ [WorkerPc.receiving] }
    else some { s with main := MainPc.sending order }
  | .sending (k :: rest) =>
    if s.jobs.length < s.capacity then
      some { s with main := MainPc.sending rest, jobs := s.jobs ++ [k] }
    else none
  | .sending [] => some { s with main := MainPc.waiting, jobsClosed := true }
  | .waiting =>
    if allDone s.workers then some { s with main := MainPc.finished, resultsClosed := true }
    else none
  | .finished => none

/-- One step of worker `i`, `none` when it is blocked, has returned or was not started.
A receive takes the oldest job and computes the result (lines 245-254, local to the
worker); on a closed and drained channel the worker returns. -/
def stepWorker (m : PassMap) (client : Transport) (i : Nat) (s : Pool) : Option Pool :=
  match s.workers.get? i with
  | none => none
  | some .receiving =>
    match s.jobs with
    | k :: rest =>
      some { s with jobs := rest
                    workers := s.workers.set i (WorkerPc.sending (workerResult m client k)) }
    | [] =>
      if s.jobsClosed then some { s with workers := s.workers.set i WorkerPc.done }
      else none
  | some (.sending r) =>
    if s.results.length < s.capacity then
      some { s with results := s.results ++ [r]
                    workers := s.workers.set i WorkerPc.receiving }
    else none
  | some .done => none

/-- One step of the goroutine the scheduler picked. -/
def step (m : PassMap) (client : Transport) (order : List Str) : Actor → Pool → Option Pool
  | .main, s => stepMain order s
  | .worker i, s => stepWorker m client i s

/-- The state after a schedule; a goroutine that cannot move when picked leaves the
state as it is. -/
def run (m : PassMap) (client : Transport) (order : List Str) : List Actor → Pool → Pool
  | [], s => s
  | a :: rest, s => run m client order rest ((step m client order a s).getD s)

/-- The job a worker holds between its receive and its send. -/
def handOf : WorkerPc → List Str
  | .sending r => [r.EntryName]
  | _ => []

/-- The jobs held by workers. -/
def inHand (ws : List WorkerPc) : List Str :=
  ws.flatMap handOf

/-- The keys the main goroutine has not sent yet. -/
def pendingOf (order : List Str) : MainPc → List Str
  | .starting _ => order
  | .sending pending => pending
  | _ => []

/-- The entry names of the results sent so far. -/
def resultNames (s : Pool) : List Str :=
  s.results.map CheckResult.EntryName

/-- The steps a goroutine of the pool still has to take. -/
def mainWeight : MainPc → Nat
  | .starting w => 2 * (numWorkers + 1 - w) + 3
  | .sending _ => 2
  | .waiting => 1
  | .finished => 0

/-- The number of steps left to the end of the run: three per key not yet sent, two per
queued job, one per job in a worker's hand, one per worker that has not returned, and
the steps of the main goroutine. -/
def stepsLeft (order : List Str) (s : Pool) : Nat :=
  mainWeight s.main + 3 * (pendingOf order s.main).length + 2 * s.jobs.length
    + (inHand s.workers).length + (s.workers.filter fun w => decide (w ≠ WorkerPc.done)).length

/-- What holds in every state of a run. -/
structure PoolInv (m : PassMap) (client : Transport) (order : List Str) (s : Pool) :
    Prop where
  capacity_eq : s.capacity = order.length
  perm : (pendingOf order s.main ++ s.jobs ++ inHand s.workers ++ resultNames s).Perm order
  results_ok : ∀ r ∈ s.results, r = workerResult m client r.EntryName
  hands_ok : ∀ r, WorkerPc.sending r ∈ s.workers → r = workerResult m client r.EntryName
  starting : ∀ w, s.main = MainPc.starting w →
    s.workers.length + 1 = w ∧ w ≤ numWorkers + 1 ∧ s.jobs = [] ∧ s.results = [] ∧
      ∀ p ∈ s.workers, p = WorkerPc.receiving
  started : (∀ w, s.main ≠ MainPc.starting w) → s.workers.length = numWorkers
  closed_iff : s.jobsClosed = true ↔ s.main = MainPc.waiting ∨ s.main = MainPc.finished
  done_drained : WorkerPc.done ∈ s.workers → s.jobs = [] ∧ s.jobsClosed = true
  finished_done : s.main = MainPc.finished → allDone s.workers = true
  results_closed : s.resultsClosed = true ↔ s.main = MainPc.finished

/-- The number of steps of a schedule in which the picked goroutine could move. -/
def moves (m : PassMap) (client : Transport) (order : List Str) : List Actor → Pool → Nat
  | [], _ => 0
  | a :: rest, s =>
    match step m client order a s with
    | some s' => moves m client order rest s' + 1
    | none => moves m client order rest s

/-- An ASCII letter in upper case, any other character as it is. -/
def upperAscii (c : Char) : Char :=
  if 97 ≤ c.toNat ∧ c.toNat ≤ 122 then Char.ofNat (c.toNat - 32) else c

/-! ## The response format in words -/

/-- A line has the form `SUFFIX:COUNT`: it holds exactly one colon. -/
def isRecord (line : Str) : Bool :=
  line.count ':' == 1

/-- The suffix segment of a line: what stands before its first colon. -/
def suffixSegment (line : Str) : Str :=
  line.takeWhile (fun c => c != ':')

/-! ## Concrete inputs -/

/-- A service that answers every request with the same response. -/
def constClient (resp : Response) : Transport :=
  fun _ => Except.ok resp

/-- A 429 answer with `Retry-After: 30`. -/
def sampleRateLimited : Response :=
  { statusCode := 429
    status := "429 Too Many Requests".toList
    header := [("Retry-After".toList, ["30".toList])]
    body := ⟨[], none⟩ }

/-- The body of section 8 of the specification: two records. -/
def sampleBody : Str :=
  "BBBBBBBBBBBBBBBBBBBBBBBBBBBBBBBBBBB:3\nCCCCCCCCCCCCCCCCCCCCCCCCCCCCCCCCCCC:1".toList

/-- A 200 answer listing the hash tail of `password` in lower case, after another record
and with CRLF line ends. -/
def samplePwned : Response :=
  { statusCode := 200
    status := "200 OK".toList
    header := []
    body := ⟨("0018A45C4D1DEF81644B54AB7F969B88D65:10\r\n"
      ++ "1e4c9b93f3f0682250b6cf8331b7ee68fd8:9545824\r\n").toList, none⟩ }

/-- A 200 answer whose body breaks off with a read error after one record. -/
def sampleBroken : Response :=
  { statusCode := 200
    status := "200 OK".toList
    header := []
    body := ⟨"0018A45C4D1DEF81644B54AB7F969B88D65:10\r\n".toList,
      some "unexpected EOF".toList⟩ }

/-- A store of four entries: `a` decrypts to a password and a second line, `b` to an
empty first line, `c` to no output at all, and gpg fails on every other file. -/
def sampleWorld : World :=
  { storePath := "/store".toList
    join := fun dir name => dir ++ "/".toList ++ name
    gpg := fun path =>
      if path = "/store/a.gpg".toList then ⟨none, "password\nuser: me\n".toList⟩
      else if path = "/store/b.gpg".toList then ⟨none, "\nuser: me\n".toList⟩
      else if path = "/store/c.gpg".toList then ⟨none, []⟩
      else ⟨some "exit status 2".toList, []⟩ }

/-- The entries of the sample store. -/
def sampleEntries : List Str :=
  ["a".toList, "b".toList, "c".toList, "d".toList]

/-- The result the worker sends on its defensive branch. -/
def skippedResult (entryName : Str) : CheckResult :=
  { EntryName := entryName, IsPwned := false, Error := none, Skipped := true }

/-- The result of a check that found no breach. -/
def safeResult (entryName : Str) : CheckResult :=
  { EntryName := entryName, IsPwned := false, Error := none, Skipped := false }

/-- Classification of an entry by its decrypt call: the call returns an error. -/
def decryptFails (w : World) (entryName : Str) : Bool :=
  (decryptEntry w entryName).2.isSome

/-- Classification of an entry by its decrypt call: no error and an empty password. -/
def decryptsEmpty (w : World) (entryName : Str) : Bool :=
  (decryptEntry w entryName).2.isNone && decide ((decryptEntry w entryName).1 = [])

/-- Classification of an entry by its decrypt call: no error and a password. -/
def decryptsPassword (w : World) (entryName : Str) : Bool :=
  (decryptEntry w entryName).2.isNone && decide ((decryptEntry w entryName).1 ≠ [])

/-- A map of two passwords. -/
def sampleMap : PassMap :=
  [("a".toList, "password".toList), ("b".toList, "hunter2".toList)]

/-- A schedule that runs the pool on two jobs to its end: the main goroutine starts the
workers, sends both keys and closes `jobs`; workers 3 and 0 take one job each and send
their results; all workers return; the main goroutine closes `results`. -/
def sampleSchedule : List Actor :=
  List.replicate 14 Actor.main
    ++ [Actor.worker 3, Actor.worker 0, Actor.worker 0, Actor.worker 3]
    ++ (List.range 10).map Actor.worker
    ++ [Actor.main]

/-! ## Facts about the hash and its rendering -/

theorem SHA1.beBytes_length (n x : Nat) : (SHA1.beBytes n x).length = n := by
  induction n with
  | zero => rfl
  | succ n ih => simp [SHA1.beBytes, ih]

theorem SHA1.sum_length (msg : List Nat) : (SHA1.sum msg).length = 20 := by
  simp [SHA1.sum, SHA1.digest, SHA1.beBytes_length]

/-- The model computes SHA-1: the test vector `abc` of FIPS 180. -/
theorem SHA1.sum_abc :
    hexUpper (SHA1.sum (toBytes "abc".toList))
      = "A9993E364706816ABA3E25717850C26C9CD0D89D".toList := by
  decide!

/-- The model computes SHA-1: the empty message. -/
theorem SHA1.sum_empty :
    hexUpper (SHA1.sum (toBytes [])) = "DA39A3EE5E6B4B0D3255BFEF95601890AFD80709".toList := by
  decide!

/-- The model computes SHA-1: a message of two blocks. -/
theorem SHA1.sum_two_blocks :
    hexUpper (SHA1.sum (toBytes
      "abcdbcdecdefdefgefghfghighijhijkijkljklmklmnlmnomnopnopq".toList))
      = "84983E441C3BD26EBAAE4AA1F95129E5E54670F1".toList := by
  decide!

theorem hexUpper_length (bs : List Nat) : (hexUpper bs).length = 2 * bs.length := by
  induction bs with
  | nil => rfl
  | cons b bs ih =>
    simp only [hexUpper, List.flatMap_cons, List.length_append, List.length_cons,
      List.length_nil] at ih ⊢
    omega

theorem hexDigit_mem (n : Nat) (h : n < 16) : hexDigit n ∈ "0123456789ABCDEF".toList := by
  interval_cases n <;> decide

theorem hexUpper_mem (bs : List Nat) (c : Char) (h : c ∈ hexUpper bs) :
    c ∈ "0123456789ABCDEF".toList := by
  simp only [hexUpper, List.mem_flatMap] at h
  obtain ⟨b, _, hc⟩ := h
  simp only [List.mem_cons, List.mem_singleton, List.not_mem_nil, or_false] at hc
  rcases hc with rfl | rfl
  · exact hexDigit_mem _ (by omega)
  · exact hexDigit_mem _ (by omega)

theorem hashString_length (password : Str) : (hashString password).length = 40 := by
  simp [hashString, hexUpper_length, SHA1.sum_length]

theorem fingerprint_fst_length (password : Str) : (fingerprint password).1.length = 5 := by
  simp [fingerprint, hashString_length]

theorem fingerprint_snd_length (password : Str) : (fingerprint password).2.length = 35 := by
  simp [fingerprint, hashString_length]

/-! ## The fingerprint (C2) -/

/-- C2: for every secret the fingerprint computed inside `checkPasswordPwned` has a head of
exactly 5 characters and a tail of exactly 35 characters, all uppercase hexadecimal
digits, whose concatenation is the uppercase hexadecimal rendering of the 20-byte SHA-1
digest of the secret's bytes; the short-hash error is never returned. -/
theorem fingerprint_spec (client : Transport) (password : Str) :
    (fingerprint password).1.length = 5 ∧
    (fingerprint password).2.length = 35 ∧
    (fingerprint password).1 ++ (fingerprint password).2
      = hexUpper (SHA1.sum (toBytes password)) ∧
    (SHA1.sum (toBytes password)).length = 20 ∧
    (∀ c ∈ (fingerprint password).1 ++ (fingerprint password).2,
      c ∈ "0123456789ABCDEF".toList) ∧
    ¬ (hashString password).length < 5 ∧
    (checkPasswordPwned client password).2 ≠ some CheckError.shortHash := by
  have hlen := hashString_length password
  refine ⟨fingerprint_fst_length password, fingerprint_snd_length password, ?_,
    SHA1.sum_length _, ?_, by omega, ?_⟩
  · simp [fingerprint, hashString]
  · intro c hc
    rw [show (fingerprint password).1 ++ (fingerprint password).2
      = hexUpper (SHA1.sum (toBytes password)) by simp [fingerprint, hashString]] at hc
    exact hexUpper_mem _ c hc
  · unfold checkPasswordPwned
    rw [if_neg (by omega)]
    split
    · simp
    · split
      · simp
      · split
        · simp
        · split
          · simp
          · split <;> simp

/-! ## The request (C4) -/

/-- C4: the request depends on the secret only through the 5-character head of its hash.
Two secrets whose hashes share the head give the same request; the request is a GET
without body to the base URL followed by exactly those 5 characters, with the two fixed
headers; and for both secrets the result depends on the transport only through its
answer to that one request, so no other request is made. -/
theorem request_depends_on_hash_head (s₁ s₂ : Str)
    (h : (hashString s₁).take 5 = (hashString s₂).take 5) :
    hibpRequest (fingerprint s₁).1 = hibpRequest (fingerprint s₂).1 ∧
    (hibpRequest (fingerprint s₁).1).url = hibpApiUrl ++ (hashString s₁).take 5 ∧
    (hibpRequest (fingerprint s₁).1).url.length = hibpApiUrl.length + 5 ∧
    (hibpRequest (fingerprint s₁).1).method = "GET".toList ∧
    (hibpRequest (fingerprint s₁).1).body = none ∧
    (hibpRequest (fingerprint s₁).1).header
      = [("User-Agent".toList, [userAgent]), ("Add-Padding".toList, ["true".toList])] ∧
    (∀ c₁ c₂ : Transport,
      c₁ (hibpRequest (fingerprint s₁).1) = c₂ (hibpRequest (fingerprint s₁).1) →
      checkPasswordPwned c₁ s₁ = checkPasswordPwned c₂ s₁ ∧
      checkPasswordPwned c₁ s₂ = checkPasswordPwned c₂ s₂) := by
  have hfp : (fingerprint s₁).1 = (fingerprint s₂).1 := h
  refine ⟨by rw [hfp], rfl, ?_, rfl, rfl, rfl, ?_⟩
  · show (hibpApiUrl ++ (fingerprint s₁).1).length = _
    rw [List.length_append, fingerprint_fst_length]
  · intro c₁ c₂ hc
    constructor
    · unfold checkPasswordPwned
      rw [hc]
    · unfold checkPasswordPwned
      rw [← hfp, hc]

/-- Witness of C4: `pw2001` and `pw2501` hash to `DC0A57B8...` and `DC0A5541...`, which
share the head `DC0A5`, and are sent as the same request. -/
theorem request_depends_on_hash_head_witness :
    (hashString "pw2001".toList).take 5 = (hashString "pw2501".toList).take 5 ∧
    hashString "pw2001".toList ≠ hashString "pw2501".toList ∧
    hibpRequest (fingerprint "pw2001".toList).1 = hibpRequest (fingerprint "pw2501".toList).1 ∧
    (hibpRequest (fingerprint "pw2001".toList).1).url
      = "https://api.pwnedpasswords.com/range/DC0A5".toList :=
  ⟨by decide!, by decide!,
   (request_depends_on_hash_head "pw2001".toList "pw2501".toList (by decide!)).1,
   by decide!⟩

/-! ## Rate limiting (C5) -/

theorem rateLimited_message_ne_transport (ra url cause : Str) :
    (CheckError.rateLimited ra).message ≠ (CheckError.transport url cause).message := by
  intro h
  have h' := congrArg List.head? h
  simp [CheckError.message, String.toList] at h'

theorem rateLimited_message_ne_badStatus (ra pfx : Str) (code : Nat) (status body : Str) :
    (CheckError.rateLimited ra).message
      ≠ (CheckError.badStatus pfx code status body).message := by
  intro h
  have h' := congrArg List.head? h
  simp [CheckError.message, String.toList] at h'

/-- C5: on a response with status 429 the result is `false` with the rate-limit error
built from the `Retry-After` header; its text contains the header value; it is the error
of the 429 branch, not the one of the generic status branch nor the transport error, and
its text differs from theirs. -/
theorem rate_limit_error (client : Transport) (password : Str) (resp : Response)
    (hresp : client (hibpRequest (fingerprint password).1) = Except.ok resp)
    (h429 : resp.statusCode = 429) :
    checkPasswordPwned client password
      = (false, some (CheckError.rateLimited (headerGet resp.header "Retry-After".toList))) ∧
    headerGet resp.header "Retry-After".toList
      <:+: (CheckError.rateLimited (headerGet resp.header "Retry-After".toList)).message ∧
    (∀ url cause, (checkPasswordPwned client password).2
      ≠ some (CheckError.transport url cause)) ∧
    (∀ pfx code status body, (checkPasswordPwned client password).2
      ≠ some (CheckError.badStatus pfx code status body)) ∧
    (∀ url cause, (CheckError.rateLimited (headerGet resp.header "Retry-After".toList)).message
      ≠ (CheckError.transport url cause).message) ∧
    (∀ pfx code status body,
      (CheckError.rateLimited (headerGet resp.header "Retry-After".toList)).message
      ≠ (CheckError.badStatus pfx code status body).message) := by
  have hlen := hashString_length password
  have hres : checkPasswordPwned client password
      = (false, some (CheckError.rateLimited (headerGet resp.header "Retry-After".toList))) := by
    unfold checkPasswordPwned
    rw [if_neg (by omega), hresp]
    simp [h429]
  refine ⟨hres, ?_, ?_, ?_, fun url cause => rateLimited_message_ne_transport _ url cause,
    fun pfx code status body => rateLimited_message_ne_badStatus _ pfx code status body⟩
  · exact ⟨"rate limited by HIBP API (wait ".toList, " seconds)".toList, rfl⟩
  · intro url cause
    rw [hres]
    simp
  · intro pfx code status body
    rw [hres]
    simp

/-- Witness of C5: a 429 answer with `Retry-After: 30` gives the rate-limit error whose
text contains `30`. -/
theorem rate_limit_error_witness :
    sampleRateLimited.statusCode = 429 ∧
    headerGet sampleRateLimited.header "Retry-After".toList = "30".toList ∧
    checkPasswordPwned (constClient sampleRateLimited) "password".toList
      = (false, some (CheckError.rateLimited "30".toList)) ∧
    "30".toList <:+: (CheckError.rateLimited "30".toList).message ∧
    (CheckError.rateLimited "30".toList).message
      = "rate limited by HIBP API (wait 30 seconds)".toList :=
  ⟨rfl, by decide,
   (rate_limit_error (constClient sampleRateLimited) "password".toList sampleRateLimited
      rfl rfl).1,
   (rate_limit_error (constClient sampleRateLimited) "password".toList sampleRateLimited
      rfl rfl).2.1,
   by decide⟩

/-! ## Case folding -/

theorem toNat_inj (a b : Char) (h : a.toNat = b.toNat) : a = b := by
  rw [← Char.ofNat_toNat a, ← Char.ofNat_toNat b, h]

theorem upperAscii_toNat (c : Char) :
    (upperAscii c).toNat = if 97 ≤ c.toNat ∧ c.toNat ≤ 122 then c.toNat - 32 else c.toNat := by
  unfold upperAscii
  by_cases h : 97 ≤ c.toNat ∧ c.toNat ≤ 122
  · rw [if_pos h, if_pos h]
    obtain ⟨h1, h2⟩ := h
    generalize c.toNat = n at h1 h2
    interval_cases n <;> rfl
  · rw [if_neg h, if_neg h]

theorem eqFoldChar_iff (a b : Char) : eqFoldChar a b = true ↔ upperAscii a = upperAscii b := by
  have hab : a = b ↔ a.toNat = b.toNat := ⟨fun h => by rw [h], toNat_inj a b⟩
  have hup : upperAscii a = upperAscii b ↔ (upperAscii a).toNat = (upperAscii b).toNat :=
    ⟨fun h => by rw [h], toNat_inj _ _⟩
  rw [hup, upperAscii_toNat, upperAscii_toNat]
  simp only [eqFoldChar, Bool.or_eq_true, decide_eq_true_eq, hab]
  split_ifs <;> omega

/-- The model of `strings.EqualFold` holds exactly when the two strings are equal once
their ASCII letters are put in upper case. -/
theorem equalFold_iff (s t : Str) :
    equalFold s t = true ↔ s.map upperAscii = t.map upperAscii := by
  induction s generalizing t with
  | nil =>
    cases t with
    | nil => simp [equalFold]
    | cons b t => simp [equalFold]
  | cons a s ih =>
    cases t with
    | nil => simp [equalFold]
    | cons b t =>
      simp only [equalFold, Bool.and_eq_true, eqFoldChar_iff, ih, List.map_cons,
        List.cons.injEq]

theorem upperAscii_hex (s : Str) (h : ∀ c ∈ s, c ∈ "0123456789ABCDEF".toList) :
    s.map upperAscii = s := by
  have key : ∀ c ∈ "0123456789ABCDEF".toList, upperAscii c = c := by decide
  calc s.map upperAscii = s.map id := List.map_congr_left fun c hc => key c (h c hc)
    _ = s := List.map_id s

theorem fingerprint_snd_upper (password : Str) :
    (fingerprint password).2.map upperAscii = (fingerprint password).2 := by
  apply upperAscii_hex
  intro c hc
  exact hexUpper_mem (SHA1.sum (toBytes password)) c (List.mem_of_mem_drop hc)

/-! ## The line loop (C1, C6) -/

theorem splitOn_ne_nil (sep : Char) (l : Str) : splitOn sep l ≠ [] := by
  induction l with
  | nil => simp [splitOn]
  | cons c cs ih =>
    unfold splitOn
    split
    · simp
    · split
      · simp
      · simp

theorem splitOn_length (sep : Char) (l : Str) :
    (splitOn sep l).length = l.count sep + 1 := by
  induction l with
  | nil => simp [splitOn]
  | cons c cs ih =>
    unfold splitOn
    by_cases h : c = sep
    · subst h
      simp [ih]
    · rw [if_neg h]
      have hc : (c :: cs).count sep = cs.count sep := by
        rw [List.count_cons]
        simp [h]
      rw [hc, ← ih]
      cases hs : splitOn sep cs with
      | nil => exact absurd hs (splitOn_ne_nil sep cs)
      | cons p ps => simp

theorem splitOn_head (sep : Char) (l : Str) :
    (splitOn sep l).headD [] = l.takeWhile (fun c => c != sep) := by
  induction l with
  | nil => simp [splitOn]
  | cons c cs ih =>
    unfold splitOn
    by_cases h : c = sep
    · subst h
      simp
    · rw [if_neg h]
      have hb : (c != sep) = true := by simpa using h
      rw [List.takeWhile_cons, hb]
      cases hs : splitOn sep cs with
      | nil => exact absurd hs (splitOn_ne_nil sep cs)
      | cons p ps =>
        rw [hs] at ih
        simp only [List.headD_cons] at ih
        simp [ih]

theorem matchLines_iff (sfx : Str) (lines : List Str) :
    matchLines sfx lines = true ↔
      ∃ line ∈ lines, line.count ':' = 1 ∧ equalFold (suffixSegment line) sfx = true := by
  induction lines with
  | nil => simp [matchLines]
  | cons line rest ih =>
    unfold matchLines
    rw [splitOn_length, splitOn_head]
    by_cases h : line.count ':' + 1 = 2 ∧
        equalFold (List.takeWhile (fun c => c != ':') line) sfx = true
    · rw [if_pos h]
      simp only [true_iff]
      exact ⟨line, List.mem_cons_self _ _, by omega, h.2⟩
    · rw [if_neg h, ih]
      constructor
      · rintro ⟨l, hl, hc⟩
        exact ⟨l, List.mem_cons_of_mem _ hl, hc⟩
      · rintro ⟨l, hl, hc⟩
        rcases List.mem_cons.mp hl with rfl | hl'
        · exact absurd ⟨by omega, hc.2⟩ h
        · exact ⟨l, hl', hc⟩

theorem scanFrom_readErr (e : Str) (data cur : Str) :
    (scanFrom (some e) cur data).2 ≠ none := by
  induction data generalizing cur with
  | nil =>
    unfold scanFrom
    split
    · simp
    · split <;> simp
  | cons c rest ih =>
    unfold scanFrom
    split
    · split
      · simp
      · exact ih []
    · exact ih _

theorem scanFrom_ok_readErr (readErr : Option Str) (data cur : Str)
    (h : (scanFrom readErr cur data).2 = none) : readErr = none := by
  cases readErr with
  | none => rfl
  | some e => exact absurd h (scanFrom_readErr e data cur)

/-- C1: on a 200 response whose body is scanned to its end without error and whose lines
all have the form `SUFFIX:COUNT`, the result is `(true, nil)` exactly when some line's
suffix segment equals the hash tail of the secret under case folding, whatever stands
after the colon, and `(false, nil)` exactly when no line does.  Equal under case folding
means: the segment with its letters in upper case is the hash tail.  On the body of the
specification a secret with the tail `BBB...` gives `(true, nil)` and one with the tail
`DDD...` gives `(false, nil)`. -/
theorem verdict_on_complete_body (client : Transport) (secret : Str) (resp : Response)
    (hresp : client (hibpRequest (fingerprint secret).1) = Except.ok resp)
    (h200 : resp.statusCode = 200)
    (hread : (scan resp.body).2 = none)
    (hform : ∀ line ∈ (scan resp.body).1, isRecord line = true) :
    (checkPasswordPwned client secret = (true, none) ↔
      ∃ line ∈ (scan resp.body).1,
        equalFold (suffixSegment line) (fingerprint secret).2 = true) ∧
    (checkPasswordPwned client secret = (false, none) ↔
      ¬ ∃ line ∈ (scan resp.body).1,
        equalFold (suffixSegment line) (fingerprint secret).2 = true) ∧
    (∀ seg : Str, equalFold seg (fingerprint secret).2 = true ↔
      seg.map upperAscii = (fingerprint secret).2) ∧
    resp.body.readErr = none ∧
    (resp.body = ⟨sampleBody, none⟩ →
      ((fingerprint secret).2 = List.replicate 35 'B' →
        checkPasswordPwned client secret = (true, none)) ∧
      ((fingerprint secret).2 = List.replicate 35 'D' →
        checkPasswordPwned client secret = (false, none))) ∧
    matchLines (List.replicate 35 'B') (scan ⟨sampleBody, none⟩).1 = true ∧
    matchLines (List.replicate 35 'D') (scan ⟨sampleBody, none⟩).1 = false := by
  have hlen := hashString_length secret
  have hm : matchLines (fingerprint secret).2 (scan resp.body).1 = true ↔
      ∃ line ∈ (scan resp.body).1,
        equalFold (suffixSegment line) (fingerprint secret).2 = true := by
    rw [matchLines_iff]
    constructor
    · rintro ⟨l, hl, _, he⟩
      exact ⟨l, hl, he⟩
    · rintro ⟨l, hl, he⟩
      exact ⟨l, hl, by simpa [isRecord] using hform l hl, he⟩
  have hres : checkPasswordPwned client secret
      = (matchLines (fingerprint secret).2 (scan resp.body).1, none) := by
    unfold checkPasswordPwned
    rw [if_neg (by omega), hresp]
    simp only [h200, hread]
    cases matchLines (fingerprint secret).2 (scan resp.body).1 <;> simp
  refine ⟨?_, ?_, ?_, scanFrom_ok_readErr _ _ _ hread, ?_, by decide, by decide⟩
  · rw [hres, ← hm]
    simp
  · rw [hres, ← hm]
    simp
  · intro seg
    rw [equalFold_iff, fingerprint_snd_upper]
  · intro hbody
    rw [hres, hbody]
    constructor
    · intro hsfx
      rw [hsfx]
      decide
    · intro hsfx
      rw [hsfx]
      decide

/-- Witness of C1: `password` hashes to `5BAA6` + `1E4C9B93...`; a complete two-record
body that lists that tail in lower case gives `(true, nil)`. -/
theorem verdict_on_complete_body_witness :
    constClient samplePwned (hibpRequest (fingerprint "password".toList).1)
      = Except.ok samplePwned ∧
    samplePwned.statusCode = 200 ∧
    (scan samplePwned.body).2 = none ∧
    (∀ line ∈ (scan samplePwned.body).1, isRecord line = true) ∧
    (fingerprint "password".toList).2 = "1E4C9B93F3F0682250B6CF8331B7EE68FD8".toList ∧
    checkPasswordPwned (constClient samplePwned) "password".toList = (true, none) ∧
    checkPasswordPwned (constClient samplePwned) "hunter2".toList = (false, none) :=
  ⟨rfl, rfl, by decide, by decide, by decide!,
   (verdict_on_complete_body (constClient samplePwned) "password".toList samplePwned
      rfl rfl (by decide) (by decide)).1.mpr
      ⟨"1e4c9b93f3f0682250b6cf8331b7ee68fd8:9545824".toList, by decide, by decide!⟩,
   (verdict_on_complete_body (constClient samplePwned) "hunter2".toList samplePwned
      rfl rfl (by decide) (by decide)).2.1.mpr (by decide!)⟩

/-- C6: on a 200 response whose scan stops with an error (the read failed, or a line
did not fit the buffer), the result is never `(false, nil)`: when no line delivered
before the failure matches, it is `false` with the body-read error that wraps the
failure.  A read error of the body always stops the scan with an error. -/
theorem no_false_negative_on_read_failure (client : Transport) (secret : Str)
    (resp : Response)
    (hresp : client (hibpRequest (fingerprint secret).1) = Except.ok resp)
    (h200 : resp.statusCode = 200)
    (hfail : resp.body.readErr ≠ none ∨ (scan resp.body).2 ≠ none) :
    checkPasswordPwned client secret ≠ (false, none) ∧
    (scan resp.body).2 ≠ none ∧
    (matchLines (fingerprint secret).2 (scan resp.body).1 = false →
      (checkPasswordPwned client secret).1 = false ∧
      (checkPasswordPwned client secret).2 ≠ none ∧
      ∃ e, (scan resp.body).2 = some e ∧
        checkPasswordPwned client secret
          = (false, some (CheckError.bodyRead (fingerprint secret).1 e))) ∧
    (matchLines (fingerprint secret).2 (scan resp.body).1 = true →
      checkPasswordPwned client secret = (true, none)) := by
  have hlen := hashString_length secret
  have hscan : (scan resp.body).2 ≠ none := by
    rcases hfail with h | h
    · intro hn
      exact h (scanFrom_ok_readErr _ _ _ hn)
    · exact h
  obtain ⟨e, he⟩ := Option.ne_none_iff_exists'.mp hscan
  have hres : checkPasswordPwned client secret
      = if matchLines (fingerprint secret).2 (scan resp.body).1 = true then (true, none)
        else (false, some (CheckError.bodyRead (fingerprint secret).1 e)) := by
    unfold checkPasswordPwned
    rw [if_neg (by omega), hresp]
    simp only [h200, he]
    simp
  refine ⟨?_, hscan, ?_, ?_⟩
  · rw [hres]
    split <;> simp
  · intro hm
    rw [hres, hm]
    simp [he]
  · intro hm
    rw [hres, hm]
    simp

/-- Witness of C6: a body that breaks off with `unexpected EOF` after a record that does
not match gives the body-read error, not `(false, nil)`. -/
theorem no_false_negative_on_read_failure_witness :
    sampleBroken.body.readErr ≠ none ∧
    checkPasswordPwned (constClient sampleBroken) "password".toList ≠ (false, none) ∧
    checkPasswordPwned (constClient sampleBroken) "password".toList
      = (false, some (CheckError.bodyRead "5BAA6".toList
          (ScanErr.read "unexpected EOF".toList))) :=
  ⟨by decide,
   (no_false_negative_on_read_failure (constClient sampleBroken) "password".toList
      sampleBroken rfl rfl (Or.inl (by decide))).1,
   by decide!⟩

/-! ## The password map -/

theorem mapGet_mapSet_self (m : PassMap) (k v : Str) : mapGet (mapSet m k v) k = some v := by
  induction m with
  | nil => simp [mapSet, mapGet]
  | cons p rest ih =>
    obtain ⟨k', w⟩ := p
    unfold mapSet
    by_cases h : k' = k
    · simp [h, mapGet]
    · simp [h, mapGet, ih]

theorem mapGet_mapSet_ne (m : PassMap) (k k' v : Str) (h : k' ≠ k) :
    mapGet (mapSet m k v) k' = mapGet m k' := by
  induction m with
  | nil => simp [mapSet, mapGet, Ne.symm h]
  | cons p rest ih =>
    obtain ⟨k₀, w⟩ := p
    unfold mapSet
    by_cases h₀ : k₀ = k
    · subst h₀
      simp [mapGet, Ne.symm h]
    · simp only [h₀, if_false, mapGet, ih]

theorem mapGet_eq_none_iff (m : PassMap) (k : Str) : mapGet m k = none ↔ k ∉ mapKeys m := by
  induction m with
  | nil => simp [mapGet, mapKeys]
  | cons p rest ih =>
    obtain ⟨k₀, w⟩ := p
    unfold mapGet
    by_cases h₀ : k₀ = k
    · simp [h₀, mapKeys]
    · simp only [h₀, if_false, ih, mapKeys, List.map_cons, List.mem_cons, not_or]
      exact ⟨fun h => ⟨Ne.symm h₀, h⟩, fun h => h.2⟩

theorem mapKeys_mapSet_of_not_mem (m : PassMap) (k v : Str) (h : k ∉ mapKeys m) :
    mapKeys (mapSet m k v) = mapKeys m ++ [k] := by
  induction m with
  | nil => simp [mapSet, mapKeys]
  | cons p rest ih =>
    obtain ⟨k₀, w⟩ := p
    simp only [mapKeys, List.map_cons, List.mem_cons, not_or] at h
    unfold mapSet
    rw [if_neg (Ne.symm h.1)]
    simp only [mapKeys, List.map_cons, List.cons_append, List.cons.injEq, true_and]
    exact ih h.2

theorem mapKeys_mapSet_of_mem (m : PassMap) (k v : Str) (h : k ∈ mapKeys m) :
    mapKeys (mapSet m k v) = mapKeys m := by
  induction m with
  | nil => simp [mapKeys] at h
  | cons p rest ih =>
    obtain ⟨k₀, w⟩ := p
    unfold mapSet
    by_cases h₀ : k₀ = k
    · simp [h₀, mapKeys]
    · simp only [mapKeys, List.map_cons, List.mem_cons] at h
      rw [if_neg h₀]
      simp only [mapKeys, List.map_cons, List.cons.injEq, true_and]
      exact ih (h.resolve_left (Ne.symm h₀))

/-! ## The decryption loop (C7, C8, C10) -/

theorem decryptStage_append (w : World) (entries : List Str) (e : Str) :
    decryptStage w (entries ++ [e]) = decryptStep w (decryptStage w entries) e := by
  simp [decryptStage, List.foldl_append]

/-- Every value stored in the map is the non-empty password its entry decrypts to. -/
theorem decryptStage_mapGet (w : World) (entries : List Str) (k v : Str)
    (h : mapGet (decryptStage w entries).decryptedPasswords k = some v) :
    k ∈ entries ∧ decryptEntry w k = (v, none) ∧ v ≠ [] := by
  induction entries using List.reverseRecOn generalizing v with
  | nil => simp [decryptStage, decryptInit, mapGet] at h
  | append_singleton es e ih =>
    rw [decryptStage_append] at h
    unfold decryptStep at h
    split at h
    · obtain ⟨h1, h2⟩ := ih v h
      exact ⟨List.mem_append_left _ h1, h2⟩
    · rename_i herr
      split at h
      · obtain ⟨h1, h2⟩ := ih v h
        exact ⟨List.mem_append_left _ h1, h2⟩
      · rename_i hne
        by_cases hk : k = e
        · subst hk
          simp only [mapGet_mapSet_self, Option.some.injEq] at h
          refine ⟨by simp, ?_, h ▸ hne⟩
          rw [← h]
          exact Prod.ext rfl herr
        · simp only [mapGet_mapSet_ne _ _ _ _ hk] at h
          obtain ⟨h1, h2⟩ := ih v h
          exact ⟨List.mem_append_left _ h1, h2⟩

/-- The counters and the keys after the loop, entry by entry. -/
theorem decryptStage_buckets (w : World) (entries : List Str) (hnd : entries.Nodup) :
    (decryptStage w entries).processed = entries.length ∧
    (decryptStage w entries).decryptionErrorCount
      = (entries.filter (decryptFails w)).length ∧
    (decryptStage w entries).decryptionSkippedCount
      = (entries.filter (decryptsEmpty w)).length ∧
    mapKeys (decryptStage w entries).decryptedPasswords
      = entries.filter (decryptsPassword w) := by
  induction entries using List.reverseRecOn with
  | nil => simp [decryptStage, decryptInit, mapKeys]
  | append_singleton es e ih =>
    have hnd' : es.Nodup := (List.nodup_append.mp hnd).1
    have hnot : e ∉ es := by
      intro hmem
      exact (List.nodup_append.mp hnd).2.2 hmem (List.mem_singleton_self e)
    obtain ⟨h1, h2, h3, h4⟩ := ih hnd'
    rw [decryptStage_append]
    simp only [List.filter_append, List.length_append, List.length_singleton]
    unfold decryptStep
    split
    · rename_i err herr
      simp [h1, h2, h3, h4, decryptFails, decryptsEmpty, decryptsPassword, herr,
        List.filter_cons]
    · rename_i herr
      split
      · rename_i hemp
        simp [h1, h2, h3, h4, decryptFails, decryptsEmpty, decryptsPassword, herr, hemp,
          List.filter_cons]
      · rename_i hne
        have hk : e ∉ mapKeys (decryptStage w es).decryptedPasswords := by
          rw [h4]
          intro hmem
          exact hnot (List.mem_filter.mp hmem).1
        simp [h1, h2, h3, h4, decryptFails, decryptsEmpty, decryptsPassword, herr, hne,
          List.filter_cons, mapKeys_mapSet_of_not_mem _ _ _ hk]

theorem filter_three_buckets (w : World) (entries : List Str) :
    (entries.filter (decryptFails w)).length + (entries.filter (decryptsEmpty w)).length
      + (entries.filter (decryptsPassword w)).length = entries.length := by
  induction entries with
  | nil => rfl
  | cons e es ih =>
    simp only [List.filter_cons, List.length_cons]
    cases herr : (decryptEntry w e).2 with
    | some err =>
      simp only [decryptFails, decryptsEmpty, decryptsPassword, herr, Option.isSome_some,
        Option.isNone_some, Bool.false_and, if_true, List.length_cons]
      simp only [Bool.false_eq_true, if_false]
      omega
    | none =>
      by_cases hemp : (decryptEntry w e).1 = []
      · simp [decryptFails, decryptsEmpty, decryptsPassword, herr, hemp]
        omega
      · simp [decryptFails, decryptsEmpty, decryptsPassword, herr, hemp]
        omega

/-- The empty-password branch of the loop (lines 161-169): an entry whose decrypt call
returns no error and an empty password is not put in the map, adds one to the
empty/skipped counter and leaves the decryption-error counter as it was; the entry is
absent from the map the whole stage builds.  The decrypt call returns this only when
gpg ran without error and the first line of its output is empty, so never on an output
of no bytes. -/
theorem empty_password_is_skipped (w : World) (entryName : Str)
    (h : decryptEntry w entryName = ([], none)) :
    (∀ st : DecryptState,
      (decryptStep w st entryName).decryptedPasswords = st.decryptedPasswords ∧
      (decryptStep w st entryName).decryptionSkippedCount = st.decryptionSkippedCount + 1 ∧
      (decryptStep w st entryName).decryptionErrorCount = st.decryptionErrorCount) ∧
    (∀ entries : List Str,
      mapGet (decryptStage w entries).decryptedPasswords entryName = none ∧
      entryName ∉ mapKeys (decryptStage w entries).decryptedPasswords) ∧
    (∀ pre post : List Str,
      (decryptStage w (pre ++ entryName :: post)).decryptedPasswords
        = (decryptStage w (pre ++ post)).decryptedPasswords ∧
      (decryptStage w (pre ++ entryName :: post)).decryptionSkippedCount
        = (decryptStage w (pre ++ post)).decryptionSkippedCount + 1 ∧
      (decryptStage w (pre ++ entryName :: post)).decryptionErrorCount
        = (decryptStage w (pre ++ post)).decryptionErrorCount) ∧
    (w.gpg (w.join w.storePath (entryName ++ ".gpg".toList))).runErr = none ∧
    (scan ⟨(w.gpg (w.join w.storePath (entryName ++ ".gpg".toList))).stdout, none⟩).1.head?
      = some [] := by
  have hstep : ∀ st : DecryptState, decryptStep w st entryName
      = { st with processed := st.processed + 1
                  decryptionSkippedCount := st.decryptionSkippedCount + 1 } := by
    intro st
    unfold decryptStep
    simp [h]
  have hget : ∀ entries : List Str,
      mapGet (decryptStage w entries).decryptedPasswords entryName = none := by
    intro entries
    cases hg : mapGet (decryptStage w entries).decryptedPasswords entryName with
    | none => rfl
    | some v =>
      obtain ⟨_, h2, h3⟩ := decryptStage_mapGet w entries entryName v hg
      rw [h] at h2
      exact absurd (congrArg Prod.fst h2).symm h3
  have hfold : ∀ (post : List Str) (st : DecryptState),
      (post.foldl (decryptStep w)
          { st with processed := st.processed + 1
                    decryptionSkippedCount := st.decryptionSkippedCount + 1 })
        = { post.foldl (decryptStep w) st with
              processed := (post.foldl (decryptStep w) st).processed + 1
              decryptionSkippedCount
                := (post.foldl (decryptStep w) st).decryptionSkippedCount + 1 } := by
    intro post
    induction post using List.reverseRecOn with
    | nil => intro st; rfl
    | append_singleton es e ih =>
      intro st
      rw [List.foldl_append, List.foldl_append, ih st]
      simp only [List.foldl_cons, List.foldl_nil]
      unfold decryptStep
      split
      · rfl
      · split <;> rfl
  refine ⟨fun st => by rw [hstep st]; exact ⟨rfl, rfl, rfl⟩,
    fun entries => ⟨hget entries, (mapGet_eq_none_iff _ _).mp (hget entries)⟩, ?_, ?_, ?_⟩
  · intro pre post
    have : decryptStage w (pre ++ entryName :: post)
        = { decryptStage w (pre ++ post) with
              processed := (decryptStage w (pre ++ post)).processed + 1
              decryptionSkippedCount
                := (decryptStage w (pre ++ post)).decryptionSkippedCount + 1 } := by
      simp only [decryptStage, List.foldl_append, List.foldl_cons]
      rw [hstep, hfold]
    rw [this]
    exact ⟨rfl, rfl, rfl⟩
  · unfold decryptEntry decryptGpgFile at h
    split at h
    · simp at h
    · assumption
  · unfold decryptEntry decryptGpgFile at h
    split at h
    · simp at h
    · split at h
      · rename_i line rest hs
        rw [hs]
        simp only [Prod.mk.injEq, and_true] at h
        simp [h]
      · split at h <;> simp at h

/-- Entry `b` of the sample store decrypts to an empty first line followed by more
output; the stage counts it as skipped, not as an error, and does not store it. -/
theorem empty_password_is_skipped_witness :
    decryptEntry sampleWorld "b".toList = ([], none) ∧
    mapGet (decryptStage sampleWorld sampleEntries).decryptedPasswords "b".toList = none ∧
    decryptStage sampleWorld sampleEntries
      = { decryptedPasswords := [("a".toList, "password".toList)]
          decryptionSkippedCount := 1
          decryptionErrorCount := 2
          processed := 4 } ∧
    (decryptStage sampleWorld ["a".toList, "b".toList]).decryptionSkippedCount
      = (decryptStage sampleWorld ["a".toList]).decryptionSkippedCount + 1 :=
  ⟨by decide,
   ((empty_password_is_skipped sampleWorld "b".toList (by decide)).2.1 sampleEntries).1,
   by decide,
   ((empty_password_is_skipped sampleWorld "b".toList (by decide)).2.2.1
      ["a".toList] []).2.1⟩

/-- A gpg run that succeeds without writing any output makes `decryptGpgFile` return the
error `password file is empty`; the stage counts the entry under decryption errors, not
under empty/skipped files. -/
theorem no_output_counts_as_error (w : World) (entryName : Str)
    (hrun : (w.gpg (w.join w.storePath (entryName ++ ".gpg".toList))).runErr = none)
    (hout : (w.gpg (w.join w.storePath (entryName ++ ".gpg".toList))).stdout = []) :
    decryptEntry w entryName = ([], some DecryptError.emptyFile) ∧
    ∀ st : DecryptState,
      (decryptStep w st entryName).decryptedPasswords = st.decryptedPasswords ∧
      (decryptStep w st entryName).decryptionSkippedCount = st.decryptionSkippedCount ∧
      (decryptStep w st entryName).decryptionErrorCount = st.decryptionErrorCount + 1 := by
  have h : decryptEntry w entryName = ([], some DecryptError.emptyFile) := by
    unfold decryptEntry decryptGpgFile
    rw [hrun, hout]
    rfl
  refine ⟨h, fun st => ?_⟩
  unfold decryptStep
  rw [h]
  exact ⟨rfl, rfl, rfl⟩

/-- C7, where the code departs from it: entry `c` of the sample store decrypts without
error to no output at all.  `decryptGpgFile` finds no first line and returns the error
`password file is empty` (lines 351-359); the loop takes its error branch (lines
151-158), adds one to the decryption-error counter and leaves the empty/skipped counter
as it was, where the claim and the comments of lines 128-129, 162 and 358 have such an
entry counted as empty/skipped.  The entry is not put in the map. -/
theorem empty_output_counted_as_error :
    (sampleWorld.gpg (sampleWorld.join sampleWorld.storePath
      ("c".toList ++ ".gpg".toList))).runErr = none ∧
    (sampleWorld.gpg (sampleWorld.join sampleWorld.storePath
      ("c".toList ++ ".gpg".toList))).stdout = [] ∧
    decryptEntry sampleWorld "c".toList = ([], some DecryptError.emptyFile) ∧
    DecryptError.emptyFile.message = "password file is empty".toList ∧
    (∀ st : DecryptState,
      (decryptStep sampleWorld st "c".toList).decryptedPasswords = st.decryptedPasswords ∧
      (decryptStep sampleWorld st "c".toList).decryptionSkippedCount
        = st.decryptionSkippedCount ∧
      (decryptStep sampleWorld st "c".toList).decryptionErrorCount
        = st.decryptionErrorCount + 1) ∧
    decryptStage sampleWorld ["c".toList]
      = { decryptedPasswords := []
          decryptionSkippedCount := 0
          decryptionErrorCount := 1
          processed := 1 } ∧
    (decryptStage sampleWorld ["c".toList]).decryptionSkippedCount
      ≠ (decryptStage sampleWorld []).decryptionSkippedCount + 1 ∧
    (decryptStage sampleWorld ["c".toList]).decryptionErrorCount
      ≠ (decryptStage sampleWorld []).decryptionErrorCount ∧
    mapGet (decryptStage sampleWorld sampleEntries).decryptedPasswords "c".toList = none :=
  ⟨by decide, by decide, by decide, by decide,
   (no_output_counts_as_error sampleWorld "c".toList (by decide) (by decide)).2,
   by decide, by decide, by decide, by decide⟩

/-- C8: for every list of entries and every decrypt outcome, each key of the map the
stage built is found by the worker's lookup with a non-empty password, so the worker
calls the breach check for it and the result it sends has `Skipped = false`; this holds
for every result a worker sends for jobs taken from the keys. -/
theorem worker_never_skips (w : World) (entries : List Str) (client : Transport) :
    (∀ k ∈ mapKeys (decryptStage w entries).decryptedPasswords,
      (∃ password, mapGet (decryptStage w entries).decryptedPasswords k = some password ∧
        password ≠ [] ∧
        workerResult (decryptStage w entries).decryptedPasswords client k
          = { EntryName := k
              IsPwned := (checkPasswordPwned client password).1
              Error := (checkPasswordPwned client password).2
              Skipped := false }) ∧
      (workerResult (decryptStage w entries).decryptedPasswords client k).Skipped = false) ∧
    (∀ received : List Str,
      (∀ k ∈ received, k ∈ mapKeys (decryptStage w entries).decryptedPasswords) →
      ∀ r ∈ hibpCheckWorker (decryptStage w entries).decryptedPasswords client received,
        r.Skipped = false) := by
  have key : ∀ k ∈ mapKeys (decryptStage w entries).decryptedPasswords,
      ∃ password, mapGet (decryptStage w entries).decryptedPasswords k = some password ∧
        password ≠ [] ∧
        workerResult (decryptStage w entries).decryptedPasswords client k
          = { EntryName := k
              IsPwned := (checkPasswordPwned client password).1
              Error := (checkPasswordPwned client password).2
              Skipped := false } := by
    intro k hk
    cases hg : mapGet (decryptStage w entries).decryptedPasswords k with
    | none => exact absurd hk ((mapGet_eq_none_iff _ _).mp hg)
    | some v =>
      have hv := (decryptStage_mapGet w entries k v hg).2.2
      refine ⟨v, rfl, hv, ?_⟩
      unfold workerResult
      rw [hg]
      simp [hv]
  constructor
  · intro k hk
    obtain ⟨password, h1, h2, h3⟩ := key k hk
    exact ⟨⟨password, h1, h2, h3⟩, by rw [h3]⟩
  · intro received hrec r hr
    simp only [hibpCheckWorker, List.mem_map] at hr
    obtain ⟨k, hk, rfl⟩ := hr
    obtain ⟨password, _, _, h3⟩ := key k (hrec k hk)
    rw [h3]

/-- C10: for pairwise distinct entries the stage visits every entry and puts it in
exactly one of three buckets by its own decrypt outcome alone: the error counter is the
number of entries whose decrypt call fails, the skipped counter the number of entries
that decrypt to an empty password, and the keys of the map are the entries that decrypt
to a password; so the three add up to the number of files found. -/
theorem decrypt_buckets_add_up (w : World) (entries : List Str) (hnd : entries.Nodup) :
    (decryptStage w entries).decryptionErrorCount
      + (decryptStage w entries).decryptionSkippedCount
      + (decryptStage w entries).decryptedPasswords.length = entries.length ∧
    (decryptStage w entries).processed = entries.length ∧
    (decryptStage w entries).decryptionErrorCount
      = (entries.filter (decryptFails w)).length ∧
    (decryptStage w entries).decryptionSkippedCount
      = (entries.filter (decryptsEmpty w)).length ∧
    mapKeys (decryptStage w entries).decryptedPasswords
      = entries.filter (decryptsPassword w) ∧
    (∀ e ∈ entries, ∀ password, decryptEntry w e = (password, none) → password ≠ [] →
      mapGet (decryptStage w entries).decryptedPasswords e = some password) := by
  obtain ⟨h1, h2, h3, h4⟩ := decryptStage_buckets w entries hnd
  have hlen : (decryptStage w entries).decryptedPasswords.length
      = (entries.filter (decryptsPassword w)).length := by
    rw [← h4]
    simp [mapKeys]
  refine ⟨?_, h1, h2, h3, h4, ?_⟩
  · rw [h2, h3, hlen]
    exact filter_three_buckets w entries
  · intro e he password hd hne
    have hmem : e ∈ mapKeys (decryptStage w entries).decryptedPasswords := by
      rw [h4]
      refine List.mem_filter.mpr ⟨he, ?_⟩
      simp [decryptsPassword, hd, hne]
    cases hg : mapGet (decryptStage w entries).decryptedPasswords e with
    | none => exact absurd hmem ((mapGet_eq_none_iff _ _).mp hg)
    | some v =>
      have hv := (decryptStage_mapGet w entries e v hg).2.1
      rw [hd] at hv
      simp only [Prod.mk.injEq, and_true] at hv
      rw [hv]

/-- Witness of C10: the four entries of the sample store end as two errors, one skipped
entry and one key. -/
theorem decrypt_buckets_add_up_witness :
    sampleEntries.Nodup ∧
    (decryptStage sampleWorld sampleEntries).decryptionErrorCount
      + (decryptStage sampleWorld sampleEntries).decryptionSkippedCount
      + (decryptStage sampleWorld sampleEntries).decryptedPasswords.length = 4 ∧
    (decryptStage sampleWorld sampleEntries).decryptionErrorCount = 2 ∧
    (decryptStage sampleWorld sampleEntries).decryptionSkippedCount = 1 :=
  ⟨by decide, (decrypt_buckets_add_up sampleWorld sampleEntries (by decide)).1,
   by decide, by decide⟩

/-! ## The result loop (C9) -/

theorem tallyStep_skipped_irrelevant (t : Tally) (r : CheckResult) (b : Bool) :
    tallyStep t { r with Skipped := b } = tallyStep t r := by
  unfold tallyStep
  rfl

/-- C9, as the code has it: the result loop never reads `Skipped`.  A skipped result as
the worker sends it is counted as a checked password and gets no line of its own, like a
safe one: replacing it by the safe result for the same entry changes no counter, no
printed line, and nothing of the final report; and setting `Skipped` to false in every
result changes nothing. -/
theorem skipped_reported_as_safe (pre post : List CheckResult) (entryName : Str)
    (found errors skipped : Nat) :
    tally (pre ++ skippedResult entryName :: post)
      = tally (pre ++ safeResult entryName :: post) ∧
    report found errors skipped (pre ++ skippedResult entryName :: post)
      = report found errors skipped (pre ++ safeResult entryName :: post) ∧
    (tally (pre ++ skippedResult entryName :: post)).checkedCount
      = (tally (pre ++ post)).checkedCount + 1 ∧
    (tally (pre ++ skippedResult entryName :: post)).pwnedCount
      = (tally (pre ++ post)).pwnedCount ∧
    (tally (pre ++ skippedResult entryName :: post)).hibpErrorCount
      = (tally (pre ++ post)).hibpErrorCount ∧
    (tally (pre ++ skippedResult entryName :: post)).out = (tally (pre ++ post)).out ∧
    (∀ results : List CheckResult,
      tally (results.map fun r => { r with Skipped := false }) = tally results) := by
  have h1 : tally (pre ++ skippedResult entryName :: post)
      = tally (pre ++ safeResult entryName :: post) := by
    simp only [tally, List.foldl_append, List.foldl_cons]
    rfl
  have hcount : ∀ (rs : List CheckResult) (t : Tally),
      (rs.foldl tallyStep t).checkedCount = t.checkedCount + rs.length := by
    intro rs
    induction rs with
    | nil => intro t; rfl
    | cons r rs ih =>
      intro t
      rw [List.foldl_cons, ih]
      have : (tallyStep t r).checkedCount = t.checkedCount + 1 := by
        unfold tallyStep
        split
        · rfl
        · split <;> rfl
      rw [this, List.length_cons]
      omega
  have hfold : ∀ (rs : List CheckResult) (t : Tally),
      rs.foldl tallyStep { t with checkedCount := t.checkedCount + 1 }
        = { rs.foldl tallyStep t with
              checkedCount := (rs.foldl tallyStep t).checkedCount + 1 } := by
    intro rs
    induction rs using List.reverseRecOn with
    | nil => intro t; rfl
    | append_singleton rs r ih =>
      intro t
      rw [List.foldl_append, List.foldl_append, ih t]
      simp only [List.foldl_cons, List.foldl_nil]
      unfold tallyStep
      split
      · rfl
      · split <;> rfl
  have h2 : tally (pre ++ skippedResult entryName :: post)
      = { tally (pre ++ post) with
            checkedCount := (tally (pre ++ post)).checkedCount + 1 } := by
    simp only [tally, List.foldl_append, List.foldl_cons]
    rw [← hfold]
    rfl
  refine ⟨h1, ?_, ?_, ?_, ?_, ?_, ?_⟩
  · simp only [report, h1]
  · simp only [tally, hcount, List.length_append, List.length_cons]
    omega
  · rw [h2]
  · rw [h2]
  · rw [h2]
  · intro results
    simp only [tally]
    generalize tallyInit = t
    induction results generalizing t with
    | nil => rfl
    | cons r rs ih =>
      rw [List.map_cons, List.foldl_cons, List.foldl_cons, tallyStep_skipped_irrelevant, ih]

/-- Counterexample to C9 as stated: a list holding one skipped result and the list
holding the safe result instead are different inputs with the same counters, the same
printed lines and the same report. -/
theorem skipped_not_surfaced :
    skippedResult "a".toList ≠ safeResult "a".toList ∧
    (skippedResult "a".toList).Skipped = true ∧
    tally [skippedResult "a".toList] = tally [safeResult "a".toList] ∧
    report 1 0 0 [skippedResult "a".toList] = report 1 0 0 [safeResult "a".toList] ∧
    (tally [skippedResult "a".toList]).checkedCount = 1 ∧
    (tally [skippedResult "a".toList]).out = tallyInit.out := by
  decide

/-! ## The worker pool (C3) -/

theorem set_split {α : Type} (ws : List α) (i : Nat) (old : α) (h : ws.get? i = some old) :
    ∃ l₁ l₂, ws = l₁ ++ old :: l₂ ∧ ∀ new, ws.set i new = l₁ ++ new :: l₂ := by
  induction ws generalizing i with
  | nil => simp at h
  | cons w ws ih =>
    cases i with
    | zero =>
      simp only [List.get?_cons_zero, Option.some.injEq] at h
      subst h
      exact ⟨[], ws, rfl, fun new => rfl⟩
    | succ i =>
      simp only [List.get?_cons_succ] at h
      obtain ⟨l₁, l₂, h1, h2⟩ := ih i h
      exact ⟨w :: l₁, l₂, by rw [h1]; rfl, fun new => by rw [List.set_cons_succ, h2]; rfl⟩

theorem perm_iff_counts {α : Type} [DecidableEq α] (a b c d o : List α) :
    (a ++ b ++ c ++ d).Perm o ↔
      ∀ x, a.count x + b.count x + c.count x + d.count x = o.count x := by
  rw [List.perm_iff_count]
  simp only [List.count_append]

theorem workerResult_name (m : PassMap) (client : Transport) (k : Str) :
    (workerResult m client k).EntryName = k := by
  unfold workerResult
  split
  · rfl
  · split <;> rfl

theorem inHand_split (l₁ l₂ : List WorkerPc) (w : WorkerPc) :
    inHand (l₁ ++ w :: l₂) = inHand l₁ ++ (handOf w ++ inHand l₂) := by
  simp [inHand, List.flatMap_append, List.flatMap_cons]

theorem notDone_split (l₁ l₂ : List WorkerPc) (w : WorkerPc) :
    ((l₁ ++ w :: l₂).filter fun p => decide (p ≠ WorkerPc.done)).length
      = (l₁.filter fun p => decide (p ≠ WorkerPc.done)).length
        + (if w = WorkerPc.done then 0 else 1)
        + (l₂.filter fun p => decide (p ≠ WorkerPc.done)).length := by
  rw [List.filter_append, List.length_append, List.filter_cons]
  by_cases h : w = WorkerPc.done
  · simp [h]
  · simp [h]
    omega

theorem allDone_split (l₁ l₂ : List WorkerPc) (w : WorkerPc)
    (h : allDone (l₁ ++ w :: l₂) = true) : w = WorkerPc.done := by
  simp only [allDone, List.all_eq_true, decide_eq_true_eq] at h
  exact h w (by simp)

theorem poolInv_init (m : PassMap) (client : Transport) (order : List Str)
    (ho : order.Perm (mapKeys m)) : PoolInv m client order (poolInit m) where
  capacity_eq := by
    have := ho.length_eq
    simp only [mapKeys, List.length_map] at this
    simp [poolInit, this]
  perm := by
    simp [poolInit, pendingOf, inHand, resultNames]
  results_ok := by
    intro r hr
    simp [poolInit] at hr
  hands_ok := by
    intro r hr
    simp [poolInit] at hr
  starting := by
    intro w hw
    simp only [poolInit, MainPc.starting.injEq] at hw
    subst hw
    simp [poolInit, numWorkers]
  started := by
    intro h
    exact absurd rfl (h 1)
  closed_iff := by simp [poolInit]
  done_drained := by
    intro h
    simp [poolInit] at h
  finished_done := by
    intro h
    simp [poolInit] at h
  results_closed := by simp [poolInit]


theorem stepMain_inv (m : PassMap) (client : Transport) (order : List Str) (s s' : Pool)
    (h : PoolInv m client order s) (hs : stepMain order s = some s') :
    PoolInv m client order s' ∧ stepsLeft order s' + 1 = stepsLeft order s := by
  obtain ⟨main, jobs, jc, results, rc, ws, cap⟩ := s
  obtain ⟨h1, h2, h3, h4, h5, h6, h7, h8, h9, h10⟩ := h
  simp only at h1 h2 h3 h4 h5 h6 h7 h8 h9 h10
  rw [perm_iff_counts] at h2
  unfold stepMain at hs
  simp only at hs
  cases main with
  | starting w =>
    simp only at hs
    obtain ⟨hw1, hw2, hw3, hw4, hw5⟩ := h5 w rfl
    by_cases hle : w ≤ numWorkers
    · rw [if_pos hle] at hs
      simp only [Option.some.injEq] at hs
      subst hs
      refine ⟨⟨h1, ?_, h3, ?_, ?_, ?_, ?_, ?_, ?_, ?_⟩, ?_⟩
      · rw [perm_iff_counts]
        intro x
        have := h2 x
        simpa [pendingOf, inHand, resultNames, handOf] using this
      · intro r hr
        simp only [List.mem_append, List.mem_singleton] at hr
        rcases hr with hr | hr
        · exact h4 r hr
        · cases hr
      · intro w' hw'
        simp only [MainPc.starting.injEq] at hw'
        subst hw'
        refine ⟨by simp; omega, by omega, hw3, hw4, ?_⟩
        intro p hp
        simp only [List.mem_append, List.mem_singleton] at hp
        rcases hp with hp | hp
        · exact hw5 p hp
        · exact hp
      · intro hne
        exact absurd rfl (hne (w + 1))
      · simpa using h7
      · intro hd
        simp only [List.mem_append, List.mem_singleton] at hd
        rcases hd with hd | hd
        · exact h8 hd
        · cases hd
      · intro hf
        cases hf
      · simpa using h10
      · simp only [stepsLeft, mainWeight, pendingOf, inHand, List.flatMap_append,
          List.filter_append, List.length_append, numWorkers] at hle ⊢
        simp [handOf]
        omega
    · rw [if_neg hle] at hs
      simp only [Option.some.injEq] at hs
      subst hs
      refine ⟨⟨h1, ?_, h3, h4, ?_, ?_, ?_, h8, ?_, ?_⟩, ?_⟩
      · rw [perm_iff_counts]
        intro x
        have := h2 x
        simpa [pendingOf, resultNames] using this
      · intro w' hw'
        cases hw'
      · intro _
        simp only [numWorkers] at hle hw2 ⊢
        omega
      · simpa using h7
      · intro hf
        cases hf
      · simpa using h10
      · simp only [stepsLeft, mainWeight, pendingOf, numWorkers] at hle hw2 ⊢
        omega
  | sending pending =>
    have hnc : jc = false := by
      cases jc with
      | false => rfl
      | true => simp at h7
    cases pending with
    | nil =>
      simp only [Option.some.injEq] at hs
      subst hs
      refine ⟨⟨h1, ?_, h3, h4, ?_, ?_, ?_, ?_, ?_, ?_⟩, ?_⟩
      · rw [perm_iff_counts]
        intro x
        have := h2 x
        simpa [pendingOf, resultNames] using this
      · intro w' hw'
        cases hw'
      · intro _
        exact h6 (fun w hw => by cases hw)
      · simp
      · intro hd
        have := (h8 hd).2
        rw [hnc] at this
        cases this
      · intro hf
        cases hf
      · simpa using h10
      · simp only [stepsLeft, mainWeight, pendingOf]
        simp
        omega
    | cons k rest =>
      simp only at hs
      by_cases hroom : jobs.length < cap
      · rw [if_pos hroom] at hs
        simp only [Option.some.injEq] at hs
        subst hs
        refine ⟨⟨h1, ?_, h3, h4, ?_, ?_, ?_, ?_, ?_, ?_⟩, ?_⟩
        · rw [perm_iff_counts]
          intro x
          have := h2 x
          simp only [pendingOf, resultNames, List.count_cons, List.count_append,
            List.count_nil] at this ⊢
          omega
        · intro w' hw'
          cases hw'
        · intro _
          exact h6 (fun w hw => by cases hw)
        · simpa using h7
        · intro hd
          have := (h8 hd).2
          rw [hnc] at this
          cases this
        · intro hf
          cases hf
        · simpa using h10
        · simp only [stepsLeft, mainWeight, pendingOf, List.length_cons, List.length_append,
            List.length_nil]
          omega
      · rw [if_neg hroom] at hs
        cases hs
  | waiting =>
    simp only at hs
    by_cases hall : allDone ws = true
    · rw [if_pos hall] at hs
      simp only [Option.some.injEq] at hs
      subst hs
      refine ⟨⟨h1, ?_, h3, h4, ?_, ?_, ?_, ?_, ?_, ?_⟩, ?_⟩
      · rw [perm_iff_counts]
        intro x
        have := h2 x
        simpa [pendingOf, resultNames] using this
      · intro w' hw'
        cases hw'
      · intro _
        exact h6 (fun w hw => by cases hw)
      · simpa using h7
      · intro hd
        exact h8 hd
      · intro _
        exact hall
      · simp
      · simp only [stepsLeft, mainWeight, pendingOf]
        omega
    · rw [if_neg hall] at hs
      cases hs
  | finished =>
    cases hs


theorem stepWorker_inv (m : PassMap) (client : Transport) (order : List Str) (i : Nat)
    (s s' : Pool) (h : PoolInv m client order s) (hs : stepWorker m client i s = some s') :
    PoolInv m client order s' ∧ stepsLeft order s' + 1 = stepsLeft order s := by
  obtain ⟨main, jobs, jc, results, rc, ws, cap⟩ := s
  obtain ⟨h1, h2, h3, h4, h5, h6, h7, h8, h9, h10⟩ := h
  simp only at h1 h2 h3 h4 h5 h6 h7 h8 h9 h10
  rw [perm_iff_counts] at h2
  unfold stepWorker at hs
  simp only at hs
  cases hw : ws.get? i with
  | none =>
    rw [hw] at hs
    cases hs
  | some pc =>
    rw [hw] at hs
    obtain ⟨l₁, l₂, hsplit, hset⟩ := set_split ws i pc hw
    have hmem : pc ∈ ws := by
      rw [hsplit]
      simp
    cases pc with
    | receiving =>
      simp only at hs
      have hnf : main ≠ MainPc.finished := by
        intro hf
        have := h9 hf
        rw [hsplit] at this
        cases allDone_split _ _ _ this
      cases jobs with
      | cons k rest =>
        simp only [Option.some.injEq] at hs
        subst hs
        have hns : ∀ w, main ≠ MainPc.starting w := by
          intro w hm
          have := (h5 w hm).2.2.1
          cases this
        have hnd : WorkerPc.done ∉ ws := by
          intro hd
          have := (h8 hd).1
          cases this
        refine ⟨⟨h1, ?_, h3, ?_, ?_, ?_, h7, ?_, ?_, h10⟩, ?_⟩
        · rw [perm_iff_counts]
          intro x
          have := h2 x
          rw [hsplit] at this
          simp only [hset, inHand_split, handOf, workerResult_name, resultNames,
            List.count_cons, List.count_append, List.count_nil] at this ⊢
          omega
        · intro r hr
          simp only [hset, List.mem_append, List.mem_cons] at hr
          rcases hr with hr | hr | hr
          · exact h4 r (by rw [hsplit]; simp [hr])
          · simp only [WorkerPc.sending.injEq] at hr
            rw [hr, workerResult_name]
          · exact h4 r (by rw [hsplit]; simp [hr])
        · intro w hm
          exact absurd hm (hns w)
        · intro _
          simp only [List.length_set]
          exact h6 hns
        · intro hd
          simp only [hset, List.mem_append, List.mem_cons] at hd
          rcases hd with hd | hd | hd
          · exact absurd (by rw [hsplit]; simp [hd]) hnd
          · cases hd
          · exact absurd (by rw [hsplit]; simp [hd]) hnd
        · intro hf
          exact absurd hf hnf
        · simp only [stepsLeft, hset]
          rw [hsplit]
          simp only [inHand_split, notDone_split, handOf,
            List.length_cons, List.length_append, List.length_nil]
          simp
          omega
      | nil =>
        simp only at hs
        cases jc with
        | false => simp at hs
        | true =>
          simp only [if_true, Option.some.injEq] at hs
          subst hs
          have hns : ∀ w, main ≠ MainPc.starting w := by
            intro w hm
            rw [hm] at h7
            simp at h7
          refine ⟨⟨h1, ?_, h3, ?_, ?_, ?_, h7, ?_, ?_, h10⟩, ?_⟩
          · rw [perm_iff_counts]
            intro x
            have := h2 x
            rw [hsplit] at this
            simp only [hset, inHand_split, handOf, resultNames,
              List.count_cons, List.count_append, List.count_nil] at this ⊢
            omega
          · intro r hr
            simp only [hset, List.mem_append, List.mem_cons] at hr
            rcases hr with hr | hr | hr
            · exact h4 r (by rw [hsplit]; simp [hr])
            · cases hr
            · exact h4 r (by rw [hsplit]; simp [hr])
          · intro w hm
            exact absurd hm (hns w)
          · intro _
            simp only [List.length_set]
            exact h6 hns
          · intro _
            exact ⟨rfl, rfl⟩
          · intro hf
            exact absurd hf hnf
          · simp only [stepsLeft, hset]
            rw [hsplit]
            simp only [inHand_split, notDone_split, handOf,
              List.length_cons, List.length_append, List.length_nil]
            simp
            omega
    | sending r =>
      simp only at hs
      by_cases hroom : results.length < cap
      · rw [if_pos hroom] at hs
        simp only [Option.some.injEq] at hs
        subst hs
        have hnf : main ≠ MainPc.finished := by
          intro hf
          have := h9 hf
          rw [hsplit] at this
          cases allDone_split _ _ _ this
        have hns : ∀ w, main ≠ MainPc.starting w := by
          intro w hm
          have := (h5 w hm).2.2.2.2 _ hmem
          cases this
        refine ⟨⟨h1, ?_, ?_, ?_, ?_, ?_, h7, ?_, ?_, h10⟩, ?_⟩
        · rw [perm_iff_counts]
          intro x
          have := h2 x
          rw [hsplit] at this
          simp only [hset, inHand_split, handOf, resultNames, List.map_append, List.map_cons,
            List.map_nil, List.count_cons, List.count_append, List.count_nil] at this ⊢
          omega
        · intro r' hr'
          simp only [List.mem_append, List.mem_singleton] at hr'
          rcases hr' with hr' | hr'
          · exact h3 r' hr'
          · rw [hr']
            exact h4 r hmem
        · intro r' hr'
          simp only [hset, List.mem_append, List.mem_cons] at hr'
          rcases hr' with hr' | hr' | hr'
          · exact h4 r' (by rw [hsplit]; simp [hr'])
          · cases hr'
          · exact h4 r' (by rw [hsplit]; simp [hr'])
        · intro w hm
          exact absurd hm (hns w)
        · intro _
          simp only [List.length_set]
          exact h6 hns
        · intro hd
          simp only [hset, List.mem_append, List.mem_cons] at hd
          rcases hd with hd | hd | hd
          · exact h8 (by rw [hsplit]; simp [hd])
          · cases hd
          · exact h8 (by rw [hsplit]; simp [hd])
        · intro hf
          exact absurd hf hnf
        · simp only [stepsLeft, hset]
          rw [hsplit]
          simp only [inHand_split, notDone_split, handOf,
            List.length_cons, List.length_append, List.length_nil]
          simp
          omega
      · rw [if_neg hroom] at hs
        cases hs
    | done =>
      cases hs


theorem step_inv (m : PassMap) (client : Transport) (order : List Str) (a : Actor)
    (s s' : Pool) (h : PoolInv m client order s) (hs : step m client order a s = some s') :
    PoolInv m client order s' ∧ stepsLeft order s' + 1 = stepsLeft order s := by
  cases a with
  | main => exact stepMain_inv m client order s s' h hs
  | worker i => exact stepWorker_inv m client order i s s' h hs

theorem run_inv (m : PassMap) (client : Transport) (order : List Str) (sched : List Actor)
    (s : Pool) (h : PoolInv m client order s) :
    PoolInv m client order (run m client order sched s) ∧
    moves m client order sched s + stepsLeft order (run m client order sched s)
      = stepsLeft order s := by
  induction sched generalizing s with
  | nil => exact ⟨h, by simp [run, moves]⟩
  | cons a rest ih =>
    unfold run moves
    cases hs : step m client order a s with
    | none =>
      simp only [Option.getD_none]
      exact ih s h
    | some s' =>
      simp only [Option.getD_some]
      obtain ⟨hinv, hleft⟩ := step_inv m client order a s s' h hs
      obtain ⟨h1, h2⟩ := ih s' hinv
      exact ⟨h1, by omega⟩

theorem run_append (m : PassMap) (client : Transport) (order : List Str)
    (s₁ s₂ : List Actor) (s : Pool) :
    run m client order (s₁ ++ s₂) s = run m client order s₂ (run m client order s₁ s) := by
  induction s₁ generalizing s with
  | nil => rfl
  | cons a rest ih => exact ih _

theorem poolInv_perm (m : PassMap) (client : Transport) (order : List Str) (s : Pool)
    (h : PoolInv m client order s) :
    (pendingOf order s.main ++ s.jobs ++ inHand s.workers ++ resultNames s).Perm order :=
  h.perm

theorem poolInv_length (m : PassMap) (client : Transport) (order : List Str) (s : Pool)
    (h : PoolInv m client order s) :
    (pendingOf order s.main).length + s.jobs.length + (inHand s.workers).length
      + s.results.length = s.capacity := by
  have := (poolInv_perm m client order s h).length_eq
  simp only [List.length_append, resultNames, List.length_map] at this
  rw [h.capacity_eq]
  exact this

theorem inHand_pos (ws : List WorkerPc) (r : CheckResult) (h : WorkerPc.sending r ∈ ws) :
    0 < (inHand ws).length := by
  apply List.length_pos_of_mem (a := r.EntryName)
  simp only [inHand, List.mem_flatMap]
  exact ⟨WorkerPc.sending r, h, by simp [handOf]⟩

/-- A send on `jobs` always finds room in the buffer. -/
theorem jobs_send_has_room (m : PassMap) (client : Transport) (order : List Str) (s : Pool)
    (h : PoolInv m client order s) (k : Str) (rest : List Str)
    (hm : s.main = MainPc.sending (k :: rest)) : s.jobs.length < s.capacity := by
  have := poolInv_length m client order s h
  rw [hm] at this
  simp only [pendingOf, List.length_cons] at this
  omega

/-- A send on `results` always finds room in the buffer. -/
theorem results_send_has_room (m : PassMap) (client : Transport) (order : List Str)
    (s : Pool) (h : PoolInv m client order s) (r : CheckResult)
    (hr : WorkerPc.sending r ∈ s.workers) : s.results.length < s.capacity := by
  have := poolInv_length m client order s h
  have := inHand_pos s.workers r hr
  omega

/-- Until `results` is closed some goroutine can move. -/
theorem pool_progress (m : PassMap) (client : Transport) (order : List Str) (s : Pool)
    (h : PoolInv m client order s) (hne : s.main ≠ MainPc.finished) :
    ∃ a s', step m client order a s = some s' := by
  cases hmain : s.main with
  | starting w =>
    refine ⟨Actor.main, ?_⟩
    simp only [step, stepMain, hmain]
    split <;> exact ⟨_, rfl⟩
  | sending pending =>
    refine ⟨Actor.main, ?_⟩
    cases pending with
    | nil =>
      simp only [step, stepMain, hmain]
      exact ⟨_, rfl⟩
    | cons k rest =>
      simp only [step, stepMain, hmain]
      rw [if_pos (jobs_send_has_room m client order s h k rest hmain)]
      exact ⟨_, rfl⟩
  | finished => exact absurd hmain hne
  | waiting =>
    by_cases hall : allDone s.workers = true
    · refine ⟨Actor.main, ?_⟩
      simp only [step, stepMain, hmain, hall, if_true]
      exact ⟨_, rfl⟩
    · simp only [allDone, List.all_eq_true, decide_eq_true_eq, not_forall] at hall
      obtain ⟨pc, hpc, hnd⟩ := hall
      obtain ⟨i, hi⟩ := List.get?_of_mem hpc
      refine ⟨Actor.worker i, ?_⟩
      simp only [step, stepWorker, hi]
      cases pc with
      | done => exact absurd rfl hnd
      | sending r =>
        simp only
        rw [if_pos (results_send_has_room m client order s h r hpc)]
        exact ⟨_, rfl⟩
      | receiving =>
        simp only
        have hc : s.jobsClosed = true := h.closed_iff.mpr (Or.inl hmain)
        cases hj : s.jobs with
        | nil =>
          simp only [hc, if_true]
          exact ⟨_, rfl⟩
        | cons k rest => exact ⟨_, rfl⟩

theorem moves_step (m : PassMap) (client : Transport) (order : List Str) (a : Actor)
    (s s' : Pool) (hs : step m client order a s = some s') :
    run m client order [a] s = s' := by
  simp [run, hs]

/-- Every state of a run can be continued to the end of the run. -/
theorem pool_completes (m : PassMap) (client : Transport) (order : List Str) :
    ∀ (n : Nat) (s : Pool), PoolInv m client order s → stepsLeft order s = n →
      ∃ sched, (run m client order sched s).main = MainPc.finished := by
  intro n
  induction n with
  | zero =>
    intro s h hz
    by_cases hf : s.main = MainPc.finished
    · exact ⟨[], hf⟩
    · obtain ⟨a, s', hs⟩ := pool_progress m client order s h hf
      have := (step_inv m client order a s s' h hs).2
      omega
  | succ n ih =>
    intro s h hz
    by_cases hf : s.main = MainPc.finished
    · exact ⟨[], hf⟩
    · obtain ⟨a, s', hs⟩ := pool_progress m client order s h hf
      obtain ⟨hinv, hleft⟩ := step_inv m client order a s s' h hs
      obtain ⟨sched, hsched⟩ := ih s' hinv (by omega)
      refine ⟨a :: sched, ?_⟩
      simp only [run, hs, Option.getD_some]
      exact hsched

theorem allDone_inHand (ws : List WorkerPc) (h : allDone ws = true) : inHand ws = [] := by
  induction ws with
  | nil => rfl
  | cons w ws ih =>
    simp only [allDone, List.all_cons, Bool.and_eq_true, decide_eq_true_eq] at h
    have hw := ih (by simpa [allDone] using h.2)
    simp only [inHand, List.flatMap_cons] at hw ⊢
    rw [hw, h.1]
    rfl

theorem stepsLeft_init (m : PassMap) (order : List Str) (ho : order.Perm (mapKeys m)) :
    stepsLeft order (poolInit m) = 3 * m.length + 23 := by
  have := ho.length_eq
  simp only [mapKeys, List.length_map] at this
  simp [stepsLeft, poolInit, mainWeight, pendingOf, inHand, numWorkers, this]
  omega


theorem filter_length_one {α β : Type} [DecidableEq β] (f : α → β) (l : List α) (k : β)
    (hnd : (l.map f).Nodup) (hk : k ∈ l.map f) :
    (l.filter fun r => decide (f r = k)).length = 1 := by
  induction l with
  | nil => simp at hk
  | cons a l ih =>
    simp only [List.map_cons, List.nodup_cons] at hnd
    by_cases h : f a = k
    · have hnone : ∀ r ∈ l, ¬ f r = k := by
        intro r hr hrk
        apply hnd.1
        rw [h, ← hrk]
        exact List.mem_map_of_mem f hr
      have : l.filter (fun r => decide (f r = k)) = [] := by
        rw [List.filter_eq_nil_iff]
        intro r hr
        simpa using hnone r hr
      simp [List.filter_cons, h, this]
    · simp only [List.map_cons, List.mem_cons] at hk
      have hk' := hk.resolve_left (Ne.symm h)
      simp [List.filter_cons, h, ih hnd.2 hk']

/-- C3: for a map with distinct keys, whatever order `range` visits them in and under
every schedule of the main goroutine and the 10 workers: a send on `jobs` or on
`results` always finds room, both buffers having the number of keys as capacity, and
never meets a closed channel; no entry name is ever sent twice, and every result sent is
the worker's result for a key;
when the run has ended (`jobs` closed and drained, all workers returned, `results`
closed) the entry names of the results are a permutation of the keys, one result per
key; and every schedule can move on until that end, which comes after exactly
`3 * keys + 23` steps. -/
theorem pool_one_result_per_key (m : PassMap) (client : Transport) (order : List Str)
    (hm : (mapKeys m).Nodup) (ho : order.Perm (mapKeys m)) (sched : List Actor) (s : Pool)
    (hs : s = run m client order sched (poolInit m)) :
    (∀ k rest, s.main = MainPc.sending (k :: rest) → s.jobs.length < s.capacity) ∧
    (∀ r, WorkerPc.sending r ∈ s.workers → s.results.length < s.capacity) ∧
    s.capacity = m.length ∧
    s.workers.length ≤ numWorkers ∧
    (s.jobsClosed = true → ∀ pending, s.main ≠ MainPc.sending pending) ∧
    (s.resultsClosed = true → allDone s.workers = true) ∧
    (resultNames s).Nodup ∧
    (∀ r ∈ s.results, r.EntryName ∈ mapKeys m ∧ r = workerResult m client r.EntryName) ∧
    (s.main = MainPc.finished →
      (resultNames s).Perm (mapKeys m) ∧ s.results.length = m.length ∧
      (∀ k ∈ mapKeys m, (s.results.filter fun r => decide (r.EntryName = k)).length = 1) ∧
      allDone s.workers = true ∧ s.workers.length = numWorkers ∧
      s.jobs = [] ∧ s.jobsClosed = true ∧ s.resultsClosed = true) ∧
    (s.main ≠ MainPc.finished → ∃ a s', step m client order a s = some s') ∧
    (∃ rest, (run m client order (sched ++ rest) (poolInit m)).main = MainPc.finished) ∧
    moves m client order sched (poolInit m) + stepsLeft order s = 3 * m.length + 23 := by
  obtain ⟨hinv, hmoves⟩ := run_inv m client order sched (poolInit m)
    (poolInv_init m client order ho)
  rw [← hs] at hinv hmoves
  have hlen : order.length = m.length := by
    have := ho.length_eq
    simpa [mapKeys] using this
  have hsub : (resultNames s).Sublist
      (pendingOf order s.main ++ s.jobs ++ inHand s.workers ++ resultNames s) :=
    List.sublist_append_right _ _
  have hnd : (pendingOf order s.main ++ s.jobs ++ inHand s.workers ++ resultNames s).Nodup :=
    (hinv.perm.trans ho).nodup_iff.mpr hm
  have hwl : s.workers.length ≤ numWorkers := by
    cases hmain : s.main with
    | starting w =>
      have := hinv.starting w hmain
      omega
    | sending p => exact le_of_eq (hinv.started (by intro w hw; rw [hmain] at hw; cases hw))
    | waiting => exact le_of_eq (hinv.started (by intro w hw; rw [hmain] at hw; cases hw))
    | finished => exact le_of_eq (hinv.started (by intro w hw; rw [hmain] at hw; cases hw))
  refine ⟨jobs_send_has_room m client order s hinv, results_send_has_room m client order s hinv,
    by rw [hinv.capacity_eq, hlen], hwl, ?_, ?_, hsub.nodup hnd, ?_, ?_,
    pool_progress m client order s hinv, ?_, ?_⟩
  · intro hc pending hp
    rcases hinv.closed_iff.mp hc with h | h <;> rw [hp] at h <;> cases h
  · intro hc
    exact hinv.finished_done (hinv.results_closed.mp hc)
  · intro r hr
    refine ⟨?_, hinv.results_ok r hr⟩
    apply (hinv.perm.trans ho).subset
    apply hsub.subset
    exact List.mem_map_of_mem _ hr
  · intro hfin
    have hall := hinv.finished_done hfin
    have hwn : s.workers.length = numWorkers :=
      hinv.started (by intro w hw; rw [hfin] at hw; cases hw)
    have hdone : WorkerPc.done ∈ s.workers := by
      cases hws : s.workers with
      | nil =>
        rw [hws] at hwn
        simp [numWorkers] at hwn
      | cons w ws =>
        rw [hws] at hall
        rw [allDone_split [] ws w hall]
        simp
    obtain ⟨hj, hc⟩ := hinv.done_drained hdone
    have hperm := hinv.perm
    rw [hfin, hj, allDone_inHand _ hall] at hperm
    simp only [pendingOf, List.append_nil, List.nil_append] at hperm
    have hp : (resultNames s).Perm (mapKeys m) := hperm.trans ho
    have hl : s.results.length = m.length := by
      have := hp.length_eq
      simpa [resultNames, mapKeys] using this
    refine ⟨hp, hl, ?_, hall, hwn, hj, hc, hinv.results_closed.mpr hfin⟩
    intro k hk
    exact filter_length_one CheckResult.EntryName s.results k (hsub.nodup hnd)
      (hp.symm.subset hk)
  · obtain ⟨rest, hrest⟩ := pool_completes m client order _ s hinv rfl
    refine ⟨rest, ?_⟩
    rw [run_append, ← hs]
    exact hrest
  · rw [hmoves, stepsLeft_init m order ho]

/-- Witness of C3: the sample schedule runs the pool on a map of two passwords until
`results` is closed; the keys are sent in the order `b`, `a`, the results arrive in the
order `a`, `b`, one per key, after 29 steps. -/
theorem pool_one_result_per_key_witness :
    (mapKeys sampleMap).Nodup ∧
    ["b".toList, "a".toList].Perm (mapKeys sampleMap) ∧
    (run sampleMap (constClient samplePwned) ["b".toList, "a".toList] sampleSchedule
      (poolInit sampleMap)).main = MainPc.finished ∧
    (run sampleMap (constClient samplePwned) ["b".toList, "a".toList] sampleSchedule
      (poolInit sampleMap)).results
      = [⟨"a".toList, true, none, false⟩, ⟨"b".toList, false, none, false⟩] ∧
    (resultNames (run sampleMap (constClient samplePwned) ["b".toList, "a".toList]
      sampleSchedule (poolInit sampleMap))).Perm (mapKeys sampleMap) ∧
    moves sampleMap (constClient samplePwned) ["b".toList, "a".toList] sampleSchedule
      (poolInit sampleMap) = 29 :=
  ⟨by decide, List.Perm.swap "a".toList "b".toList [], by decide!, by decide!,
   ((pool_one_result_per_key sampleMap (constClient samplePwned) ["b".toList, "a".toList]
      (by decide) (List.Perm.swap "a".toList "b".toList []) sampleSchedule _
      rfl).2.2.2.2.2.2.2.2.1 (by decide!)).1,
   by decide!⟩

/-- No result of a pool run on the map built by the decryption stage is marked skipped. -/
theorem pool_results_not_skipped (w : World) (entries : List Str) (client : Transport)
    (order : List Str)
    (ho : order.Perm (mapKeys (decryptStage w entries).decryptedPasswords))
    (sched : List Actor) :
    ∀ r ∈ (run (decryptStage w entries).decryptedPasswords client order sched
      (poolInit (decryptStage w entries).decryptedPasswords)).results, r.Skipped = false := by
  intro r hr
  have hinv := (run_inv _ client order sched _ (poolInv_init _ client order ho)).1
  have hmem : r.EntryName ∈ mapKeys (decryptStage w entries).decryptedPasswords := by
    apply (hinv.perm.trans ho).subset
    apply List.mem_append_right
    exact List.mem_map_of_mem _ hr
  rw [hinv.results_ok r hr]
  cases hg : mapGet (decryptStage w entries).decryptedPasswords r.EntryName with
  | none => exact absurd hmem ((mapGet_eq_none_iff _ _).mp hg)
  | some v =>
    have hv := (decryptStage_mapGet w entries _ v hg).2.2
    unfold workerResult
    rw [hg]
    simp [hv]

end PassCheck
